import Mathlib

set_option maxRecDepth 4000

/-!
Shallow embedding of `src/main.rs` (an 8-puzzle solver working on a packed
32-bit state) and proofs about it.

Machine integers: Rust `u32` values are modelled as `Nat` with explicit
`% 2^32` where the source relies on wrapping.  The source is compiled in
release mode semantics (the `field += to_pos(...)` line wraps); we note at
each spot where debug-mode Rust would instead panic.
-/

namespace Superzub

/-- The `u32` modulus. -/
def W : Nat := 2 ^ 32

/-- `const fn get_blank_pos(field: u32) -> u32 { field >> 27 }` -/
def get_blank_pos (field : Nat) : Nat := field >>> 27

/-- `const fn get_mask(x: u32) -> u32 { 0b111 << (x * 3) }`.
In every state exercised by the program `x * 3 ≤ 24`, so the `% W` is the
identity there (Rust would panic on a shift of 32 or more in debug mode;
the `% W` merely totalises the model). -/
def get_mask (x : Nat) : Nat := (7 <<< (x * 3)) % W

/-- `const fn get_tile(field: u32, i: u32) -> u32` -/
def get_tile (field i : Nat) : Nat := (field &&& get_mask i) >>> (i * 3)

/-- `const fn to_pos(x: u32) -> u32 { x << 27 }` (wrapping into 32 bits). -/
def to_pos (x : Nat) : Nat := (x <<< 27) % W

/-- `const fn wrap_around(x: i32) -> u32 { ((32 + x) % 32) as u32 }` -/
def wrap_around (x : Int) : Nat := ((32 + x) % 32).toNat

/-- `u32::rotate_right`. -/
def rotate_right (x n : Nat) : Nat :=
  ((x >>> (n % 32)) ||| (x <<< (32 - n % 32))) % W

/-- The common body of the four macro-generated move functions
(`gen_functions!`), parameterised by the boundary predicate and the
position delta, exactly as in the macro. -/
def moveFn (pred : Nat → Bool) (delta : Int) (field : Nat) : Nat :=
  let blank_pos := get_blank_pos field
  if pred blank_pos then
    -- `blank_pos = (blank_pos as i32 + delta) as u32`
    let blank_pos := (((blank_pos : Int) + delta) % (W : Int)).toNat
    let mask := get_mask blank_pos
    let masked := field &&& mask
    -- `let digit_new = masked.rotate_right(wrap_around(SHIFT))` with
    -- `SHIFT = delta * 3`
    let digit_new := rotate_right masked (wrap_around (delta * 3))
    -- `field &= !mask` (bitwise complement inside 32 bits)
    let field := field &&& ((W - 1) ^^^ mask)
    let field := field ||| digit_new
    -- `field += to_pos(delta as u32)`: wraps in release mode
    (field + to_pos (((delta : Int) % (W : Int)).toNat)) % W
  else field

/-- `up`: legal iff `pos >= 3`, delta `-3`. -/
def up (field : Nat) : Nat := moveFn (fun pos => decide (3 ≤ pos)) (-3) field

/-- `down`: legal iff `pos <= 5`, delta `3`. -/
def down (field : Nat) : Nat := moveFn (fun pos => decide (pos ≤ 5)) 3 field

/-- `left`: legal iff `pos % 3 != 0`, delta `-1`. -/
def left (field : Nat) : Nat := moveFn (fun pos => decide (pos % 3 ≠ 0)) (-1) field

/-- `right`: legal iff `pos % 3 != 2`, delta `1`. -/
def right (field : Nat) : Nat := moveFn (fun pos => decide (pos % 3 ≠ 2)) 1 field

/-- The four slide moves. -/
inductive Move where
  | up
  | down
  | left
  | right
deriving DecidableEq

instance : Fintype Move :=
  ⟨⟨{Move.up, Move.down, Move.left, Move.right}, by decide⟩, by
    intro m; cases m <;> decide⟩

/-- Dispatch a `Move` to the corresponding source function. -/
def Move.apply : Move → Nat → Nat
  | .up => Superzub.up
  | .down => Superzub.down
  | .left => Superzub.left
  | .right => Superzub.right

/-- The boundary predicate of each move, as in the source
(`pos >= 3`, `pos <= 5`, `pos % 3 != 0`, `pos % 3 != 2`). -/
def Move.legal : Move → Nat → Bool
  | .up, pos => decide (3 ≤ pos)
  | .down, pos => decide (pos ≤ 5)
  | .left, pos => decide (pos % 3 ≠ 0)
  | .right, pos => decide (pos % 3 ≠ 2)

/-- The position delta of each move. -/
def Move.delta : Move → Int
  | .up => -3
  | .down => 3
  | .left => -1
  | .right => 1

/-- The inverse direction: `up`/`down` and `left`/`right` are mutual
inverses. -/
def Move.inv : Move → Move
  | .up => .down
  | .down => .up
  | .left => .right
  | .right => .left

/-- `enum SolveError`. -/
inductive SolveError where
  | InputSizeMismatch
  | OutputSizeMismatch
  | AlphabetMismatch
  | Unsolvable
deriving DecidableEq

/-- `fn make_mapping(input: &str) -> HashMap<char, u32>`: first-occurrence
order assigns keys `0, 1, ...` to the distinct characters of `input`
(including the blank `' '`).  The hash map is modelled as an association
list; only keyed lookups are ever performed on it. -/
def make_mapping_aux : List Char → List (Char × Nat) → Nat → List (Char × Nat)
  | [], m, _ => m
  | c :: cs, m, key =>
    if (m.lookup c).isSome then make_mapping_aux cs m key
    else make_mapping_aux cs (m ++ [(c, key)]) (key + 1)

def make_mapping (input : List Char) : List (Char × Nat) :=
  make_mapping_aux input [] 0

/-- `fn is_permutation(a, b)`: every character of `a` occurs equally often
in `a` and in `b`. -/
def is_permutation (a b : List Char) : Bool :=
  a.all fun ch => a.count ch == b.count ch

/-- `fn validate_input`: sizes first, then the permutation check. -/
def validate_input (input output : List Char) : Except SolveError Unit :=
  if input.length = 9 then
    if output.length = 9 then
      if is_permutation input output then .ok ()
      else .error .AlphabetMismatch
    else .error .OutputSizeMismatch
  else .error .InputSizeMismatch

/-- One packed contribution of `pack`'s closure: the blank stores its
position in the upper bits, other symbols store their mapped code at the
slot's 3-bit field.  `mapping[&ch]` panics in Rust when `ch` is absent;
`solve` only calls `pack` after validation, which guarantees presence, so
the model's `getD 0` default is never reached from `solve`. -/
def pack_one (mapping : List (Char × Nat)) (index : Nat) (ch : Char) : Nat :=
  if ch = ' ' then to_pos index
  else (((mapping.lookup ch).getD 0) <<< (index * 3)) % W

/-- `fn pack`: fold the zipped input/output characters, OR-ing the packed
contributions into the two ciphers. -/
def pack_aux (mapping : List (Char × Nat)) :
    Nat → List (Char × Char) → Nat × Nat → Nat × Nat
  | _, [], acc => acc
  | index, (ic, oc) :: rest, (a, b) =>
    pack_aux mapping (index + 1) rest
      (a ||| pack_one mapping index ic, b ||| pack_one mapping index oc)

def pack (input output : List Char) (mapping : List (Char × Nat)) : Nat × Nat :=
  pack_aux mapping 0 (input.zip output) (0, 0)

/-- The search state of the loop in `solve`: the predecessor map `arr`
(association list, keyed access only), the two vectors `current_moves` and
`future_moves`, and the loop variable `cur`.  The `Vec`s are stored with
their top (the end that `Vec::pop` removes, i.e. the most recently pushed
element) at the head of the list. -/
structure SearchState where
  arr : List (Nat × Nat)
  current : List Nat
  future : List Nat
  cur : Nat
deriving DecidableEq

/-- `arr.entry(value).or_insert_with(|| { future_moves.push(value); cur })`
for one generated successor. -/
def insertNew (cur v : Nat) (st : List (Nat × Nat) × List Nat) :
    List (Nat × Nat) × List Nat :=
  if (st.1.lookup v).isSome then st else ((v, cur) :: st.1, v :: st.2)

/-- Expand one state: apply the four moves in source order and record the
newly discovered successors. -/
def expand (arr : List (Nat × Nat)) (future : List Nat) (cur : Nat) :
    List (Nat × Nat) × List Nat :=
  insertNew cur (right cur) (insertNew cur (left cur)
    (insertNew cur (down cur) (insertNew cur (up cur) (arr, future))))

/-- One iteration of the `while cur != in_cipher` loop body, after the pop
produced `v` with remaining stack `rest`. -/
def loopStep (st : SearchState) (v : Nat) (rest : List Nat) :
    SearchState :=
  let (arr, future) := expand st.arr st.future v
  if rest.isEmpty then ⟨arr, future, [], v⟩ else ⟨arr, rest, future, v⟩

/-- The search loop of `solve`, fuelled.  `none` models running out of
fuel (the proofs below show enough fuel always exists), a popped empty
queue yields `Unsolvable` exactly as `.ok_or(SolveError::Unsolvable)?`
does. -/
def searchLoop (in_cipher : Nat) : Nat → SearchState →
    Option (Except SolveError SearchState)
  | 0, _ => none
  | fuel + 1, st =>
    if st.cur = in_cipher then some (.ok st)
    else
      match st.current with
      | [] => some (.error .Unsolvable)
      | v :: rest => searchLoop in_cipher fuel (loopStep st v rest)

/-- The sequence of states the loop pops for expansion, in order (a ghost
observer of `searchLoop`, not present in the source; it is used to state
the claims about expansion order). -/
def searchTrail (in_cipher : Nat) : Nat → SearchState → List Nat
  | 0, _ => []
  | fuel + 1, st =>
    if st.cur = in_cipher then []
    else
      match st.current with
      | [] => []
      | v :: rest => v :: searchTrail in_cipher fuel (loopStep st v rest)

/-- Trace reconstruction: `trace = vec![cur]; while cur != arr[&cur] { ... }`.
A missing key (`arr[&cur]` panics in Rust) or exhausted fuel is `none`. -/
def build_trace (arr : List (Nat × Nat)) : Nat → Nat → Option (List Nat)
  | 0, _ => none
  | fuel + 1, cur =>
    match arr.lookup cur with
    | none => none
    | some p => if p = cur then some [cur] else (build_trace arr fuel p).map (cur :: ·)

/-- `fn solve(input, output)`: validation, packing, the backward BFS from
the goal cipher, and trace reconstruction.  The result is the `trace`
field of the returned `Trace` (the list of packed states from the start
cipher back to the goal cipher); the display `mapping` is not modelled. -/
def solve (fuel : Nat) (input output : List Char) :
    Option (Except SolveError (List Nat)) :=
  match validate_input input output with
  | .error e => some (.error e)
  | .ok () =>
    let mapping := make_mapping input
    let (in_cipher, out_cipher) := pack input output mapping
    let st0 : SearchState := ⟨[(out_cipher, out_cipher)], [out_cipher], [], 0⟩
    match searchLoop in_cipher fuel st0 with
    | none => none
    | some (.error e) => some (.error e)
    | some (.ok st) => (build_trace st.arr fuel st.cur).map .ok

/-- The expansion order of a whole `solve` run (ghost observer). -/
def solveTrail (fuel : Nat) (input output : List Char) : List Nat :=
  match validate_input input output with
  | .error _ => []
  | .ok () =>
    let mapping := make_mapping input
    let (in_cipher, out_cipher) := pack input output mapping
    searchTrail in_cipher fuel ⟨[(out_cipher, out_cipher)], [out_cipher], [], 0⟩

/-- A well-formed packed state: a 32-bit value whose blank-position field
is a slot index (0-8) and whose blank slot holds the all-zero 3-bit code
(the canonical representation that `pack` produces for a valid board and
that every move preserves). -/
def wf (s : Nat) : Prop :=
  s < W ∧ get_blank_pos s ≤ 8 ∧ get_tile s (get_blank_pos s) = 0

instance : DecidablePred wf := fun _ => by unfold wf; infer_instance

/-- The slot the blank moves to. -/
def Move.target : Move → Nat → Nat
  | .up, p => p - 3
  | .down, p => p + 3
  | .left, p => p - 1
  | .right, p => p + 1

/-- Reachability in the packed-state graph generated by the four moves
(the graph the search engine of `solve` explores, starting at the goal
cipher). -/
inductive Reach (root : Nat) : Nat → Prop
  | refl : Reach root root
  | tail {t u : Nat} (h : Reach root t) (m : Move) (hm : m.apply t = u) :
      Reach root u

/-- A conserved quantity of the move dynamics on well-formed states: the
multiset of the nine 3-bit fields, encoded as the sum of `9 ^ field`. -/
def tally (s : Nat) : Nat :=
  ((List.range 9).map fun i => 9 ^ get_tile s i).sum

/-- Modelled from the spec (section 3, Frontier Queue): a single strict
FIFO queue — dequeue at the front, enqueue newly discovered states at the
back in discovery order — with otherwise identical bookkeeping, recording
the dequeue (expansion) order.  This is the reference the two-vector
implementation is compared against. -/
def fifoTrail (in_cipher : Nat) :
    Nat → List (Nat × Nat) → List Nat → Nat → List Nat
  | 0, _, _, _ => []
  | fuel + 1, arr, queue, cur =>
    if cur = in_cipher then []
    else
      match queue with
      | [] => []
      | v :: rest =>
        let (arr, pushed) := expand arr [] v
        v :: fifoTrail in_cipher fuel arr (rest ++ pushed.reverse) v

/-- The strict-FIFO expansion order of a whole run (spec reference). -/
def solveFifoTrail (fuel : Nat) (input output : List Char) : List Nat :=
  match validate_input input output with
  | .error _ => []
  | .ok () =>
    let mapping := make_mapping input
    let (in_cipher, out_cipher) := pack input output mapping
    fifoTrail in_cipher fuel [(out_cipher, out_cipher)] [out_cipher] 0

/-- Number of inversions of a list of naturals. -/
def inv_count : List Nat → Nat
  | [] => 0
  | x :: xs => (xs.filter fun y => decide (y < x)).length + inv_count xs

/-- Modelled from the spec: the inversion-count parity solvability
pre-check (spec sections 1, 4.3, 8), which the spec places outside the
search core and which has no counterpart anywhere in `src/`.  The blanks
are dropped and the inversion count of the start sequence relative to the
goal sequence is taken; odd parity means unsolvable. -/
def parity_fails (input output : List Char) : Bool :=
  let a := input.filter (· != ' ')
  let b := output.filter (· != ' ')
  inv_count (a.map fun c => b.indexOf c) % 2 == 1

/-- The body of a legal move spelled out: clear the target slot `q`, OR in
the rotated extracted tile, add `c * 2^27` to the position field (proof
abbreviation; the lemmas below show each move function equals it). -/
def moveBits (s q r c : Nat) : Nat :=
  (((s &&& ((W - 1) ^^^ get_mask q)) ||| rotate_right (s &&& get_mask q) r)
    + c * 2 ^ 27) % W

end Superzub

deriving instance DecidableEq for Except

namespace Superzub

/-! ### Codec lemmas -/

theorem testBit_seven (j : Nat) : Nat.testBit 7 j = decide (j < 3) := by
  have h : (7 : Nat) = 2 ^ 3 - 1 := by norm_num
  rw [h, Nat.testBit_two_pow_sub_one]

theorem get_mask_eq (x : Nat) (hx : x ≤ 9) : get_mask x = 7 <<< (x * 3) := by
  unfold get_mask
  apply Nat.mod_eq_of_lt
  rw [Nat.shiftLeft_eq]
  calc 7 * 2 ^ (x * 3) ≤ 7 * 2 ^ 27 :=
        Nat.mul_le_mul_left 7 (Nat.pow_le_pow_right (by norm_num) (by omega))
    _ < W := by norm_num [W]

theorem get_tile_eq (s i : Nat) (hi : i ≤ 9) :
    get_tile s i = (s >>> (i * 3)) % 8 := by
  unfold get_tile
  rw [get_mask_eq i hi]
  have h8 : (8 : Nat) = 2 ^ 3 := by norm_num
  rw [h8]
  apply Nat.eq_of_testBit_eq
  intro j
  simp only [Nat.testBit_shiftRight, Nat.testBit_land, Nat.testBit_shiftLeft,
    Nat.testBit_mod_two_pow, testBit_seven, ge_iff_le, Nat.le_add_right,
    decide_True, Bool.true_and, Nat.add_sub_cancel_left]
  exact Bool.and_comm _ _

theorem get_tile_lt (s i : Nat) (hi : i ≤ 9) : get_tile s i < 8 := by
  rw [get_tile_eq s i hi]; exact Nat.mod_lt _ (by norm_num)

theorem get_blank_pos_lt (s : Nat) (h : s < W) : get_blank_pos s < 32 := by
  unfold get_blank_pos
  rw [Nat.shiftRight_eq_div_pow]
  have hW : W = 32 * 2 ^ 27 := by norm_num [W]
  exact Nat.div_lt_of_lt_mul (by omega)

theorem testBit_get_tile (s i r : Nat) (hi : i ≤ 9) :
    (get_tile s i).testBit r = (decide (r < 3) && s.testBit (i * 3 + r)) := by
  rw [get_tile_eq s i hi]
  have h8 : (8 : Nat) = 2 ^ 3 := by norm_num
  rw [h8, Nat.testBit_mod_two_pow, Nat.testBit_shiftRight]

theorem testBit_of_ge_32 (s j : Nat) (hs : s < W) (hj : 32 ≤ j) :
    s.testBit j = false := by
  apply Nat.testBit_eq_false_of_lt
  calc s < W := hs
    _ = 2 ^ 32 := rfl
    _ ≤ 2 ^ j := Nat.pow_le_pow_right (by norm_num) hj

theorem lt_W_of_testBit (x : Nat) (h : ∀ j, 32 ≤ j → x.testBit j = false) :
    x < W := by
  by_contra hx
  push_neg at hx
  obtain ⟨i, hi, ht⟩ := Nat.ge_two_pow_implies_high_bit_true (x := x) (n := 32) hx
  rw [h i hi] at ht
  exact Bool.false_ne_true ht

/-- Two 32-bit states with the same blank-position field and the same nine
3-bit fields are equal. -/
theorem state_ext (x y : Nat) (hx : x < W) (hy : y < W)
    (hpos : get_blank_pos x = get_blank_pos y)
    (ht : ∀ i, i ≤ 8 → get_tile x i = get_tile y i) : x = y := by
  apply Nat.eq_of_testBit_eq
  intro j
  rcases Nat.lt_or_ge j 27 with hj | hj
  · have h3 : j / 3 ≤ 8 := by omega
    have hxj := testBit_get_tile x (j / 3) (j % 3) (by omega)
    have hyj := testBit_get_tile y (j / 3) (j % 3) (by omega)
    have hid : j / 3 * 3 + j % 3 = j := by omega
    rw [hid] at hxj hyj
    have hr : decide (j % 3 < 3) = true := by simp [Nat.mod_lt]
    rw [hr, Bool.true_and] at hxj hyj
    rw [← hxj, ← hyj, ht (j / 3) h3]
  · rcases Nat.lt_or_ge j 32 with hj2 | hj2
    · have hid : j = 27 + (j - 27) := by omega
      rw [hid, ← Nat.testBit_shiftRight, ← Nat.testBit_shiftRight]
      show (get_blank_pos x).testBit _ = (get_blank_pos y).testBit _
      rw [hpos]
    · rw [testBit_of_ge_32 x j hx hj2, testBit_of_ge_32 y j hy hj2]

/-- `field & mask` extracts exactly the 3-bit field at slot `q`. -/
theorem and_mask (s q : Nat) (hq : q ≤ 9) :
    s &&& get_mask q = get_tile s q <<< (q * 3) := by
  rw [get_mask_eq q hq]
  apply Nat.eq_of_testBit_eq
  intro j
  simp only [Nat.testBit_land, Nat.testBit_shiftLeft, testBit_seven, ge_iff_le]
  rw [testBit_get_tile s q (j - q * 3) hq]
  by_cases hj : q * 3 ≤ j
  · have hid : q * 3 + (j - q * 3) = j := by omega
    simp [hj, hid, Bool.and_comm]
  · simp [hj]

/-! ### Rotation lemmas -/

/-- Rotating a 3-bit value sitting at bit `k` right by `32 - n` moves it
up to bit `k + n` without touching the word boundary (the negative-shift
wraparound used by `up` and `left`). -/
theorem rotate_right_toward_high (t k n : Nat) (ht : t < 8) (h1 : 0 < n)
    (h2 : n < 32) (h3 : k + 3 + n ≤ 32) :
    rotate_right (t <<< k) (32 - n) = t <<< (k + n) := by
  unfold rotate_right
  have hm : (32 - n) % 32 = 32 - n := Nat.mod_eq_of_lt (by omega)
  rw [hm]
  have hsub : 32 - (32 - n) = n := by omega
  rw [hsub]
  have hz : (t <<< k) >>> (32 - n) = 0 := by
    rw [Nat.shiftLeft_eq, Nat.shiftRight_eq_div_pow]
    apply Nat.div_eq_of_lt
    calc t * 2 ^ k < 8 * 2 ^ k :=
          mul_lt_mul_of_pos_right ht (Nat.pos_pow_of_pos k (by norm_num))
      _ = 2 ^ (k + 3) := by rw [pow_add]; ring
      _ ≤ 2 ^ (32 - n) := Nat.pow_le_pow_right (by norm_num) (by omega)
  rw [hz, Nat.zero_or]
  have hsh : (t <<< k) <<< n = t <<< (k + n) := by
    rw [Nat.shiftLeft_eq, Nat.shiftLeft_eq, Nat.shiftLeft_eq, pow_add]; ring
  rw [hsh]
  apply Nat.mod_eq_of_lt
  rw [Nat.shiftLeft_eq]
  calc t * 2 ^ (k + n) < 8 * 2 ^ (k + n) :=
        mul_lt_mul_of_pos_right ht (Nat.pos_pow_of_pos _ (by norm_num))
    _ = 2 ^ (k + n + 3) := by rw [pow_add]; ring
    _ ≤ 2 ^ 32 := Nat.pow_le_pow_right (by norm_num) (by omega)

theorem or_shiftLeft_32_mod (a : Nat) (ha : a < W) : (a ||| a <<< 32) % W = a := by
  have hW : W = 2 ^ 32 := rfl
  rw [hW, ← Nat.and_pow_two_sub_one_eq_mod]
  apply Nat.eq_of_testBit_eq
  intro j
  simp only [Nat.testBit_land, Nat.testBit_lor, Nat.testBit_shiftLeft,
    Nat.testBit_two_pow_sub_one, ge_iff_le]
  by_cases hj : j < 32
  · have h32 : ¬ 32 ≤ j := by omega
    simp [hj, h32]
  · have hfa : a.testBit j = false := testBit_of_ge_32 a j ha (by omega)
    simp [hj, hfa]

/-- Rotating a 3-bit value sitting at bit `k` right by `n ≤ k` moves it
down to bit `k - n` (the positive-shift case used by `down` and `right`). -/
theorem rotate_right_toward_low (t k n : Nat) (ht : t < 8) (h1 : 0 < n)
    (h2 : n < 32) (h3 : n ≤ k) (h4 : k + 3 ≤ 32) :
    rotate_right (t <<< k) n = t <<< (k - n) := by
  unfold rotate_right
  have hm : n % 32 = n := Nat.mod_eq_of_lt h2
  rw [hm]
  have hdown : (t <<< k) >>> n = t <<< (k - n) := by
    rw [Nat.shiftLeft_eq, Nat.shiftRight_eq_div_pow, Nat.shiftLeft_eq]
    have : 2 ^ k = 2 ^ (k - n) * 2 ^ n := by rw [← pow_add]; congr 1; omega
    rw [this, ← Nat.mul_assoc]
    exact Nat.mul_div_cancel _ (Nat.pos_pow_of_pos n (by norm_num))
  have hup : (t <<< k) <<< (32 - n) = (t <<< (k - n)) <<< 32 := by
    rw [Nat.shiftLeft_eq, Nat.shiftLeft_eq, Nat.shiftLeft_eq, Nat.shiftLeft_eq,
      Nat.mul_assoc, Nat.mul_assoc, ← pow_add, ← pow_add]
    congr 2
    omega
  rw [hdown, hup]
  apply or_shiftLeft_32_mod
  rw [Nat.shiftLeft_eq]
  calc t * 2 ^ (k - n) < 8 * 2 ^ (k - n) :=
        mul_lt_mul_of_pos_right ht (Nat.pos_pow_of_pos _ (by norm_num))
    _ = 2 ^ (k - n + 3) := by rw [pow_add]; ring
    _ ≤ 2 ^ 32 := Nat.pow_le_pow_right (by norm_num) (by omega)

theorem lt_two_pow_of_lt_eight (v j : Nat) (hv : v < 8) (hj : 3 ≤ j) :
    v < 2 ^ j :=
  lt_of_lt_of_le hv
    (by calc (8 : Nat) = 2 ^ 3 := by norm_num
      _ ≤ 2 ^ j := Nat.pow_le_pow_right (by norm_num) hj)

/-! ### Characterisation of a legal move -/

theorem tile_eq_of_testBit (x i v : Nat) (hi : i ≤ 9) (hv : v < 8)
    (h : ∀ r, r < 3 → x.testBit (i * 3 + r) = v.testBit r) : get_tile x i = v := by
  rw [get_tile_eq x i hi]
  apply Nat.eq_of_testBit_eq
  intro j
  have h8 : (8 : Nat) = 2 ^ 3 := by norm_num
  rw [h8, Nat.testBit_mod_two_pow, Nat.testBit_shiftRight]
  by_cases hj : j < 3
  · have hd : decide (j < 3) = true := decide_eq_true hj
    rw [hd, Bool.true_and, h j hj]
  · have hd : decide (j < 3) = false := decide_eq_false hj
    rw [hd, Bool.false_and]
    exact (Nat.testBit_eq_false_of_lt (lt_two_pow_of_lt_eight v j hv (by omega))).symm

/-- The bits of the cleared-and-ORed intermediate value of a move. -/
theorem mid_testBit (s q t p j : Nat) (hq : q ≤ 8) (hj32 : j < 32) :
    ((s &&& ((W - 1) ^^^ get_mask q)) ||| (t <<< (p * 3))).testBit j =
      ((s.testBit j && !(decide (q * 3 ≤ j) && decide (j - q * 3 < 3))) ||
        (decide (p * 3 ≤ j) && t.testBit (j - p * 3))) := by
  have hW1 : W - 1 = 2 ^ 32 - 1 := rfl
  rw [hW1, get_mask_eq q (by omega)]
  simp only [Nat.testBit_lor, Nat.testBit_land, Nat.testBit_xor,
    Nat.testBit_shiftLeft, Nat.testBit_two_pow_sub_one, testBit_seven, ge_iff_le]
  have hd : decide (j < 32) = true := decide_eq_true hj32
  rw [hd, Bool.true_xor]

theorem mid_testBit_high (s q t p j : Nat) (hW : s < W) (ht : t < 8)
    (hp : p ≤ 8) (hj : 32 ≤ j) :
    ((s &&& ((W - 1) ^^^ get_mask q)) ||| (t <<< (p * 3))).testBit j = false := by
  simp only [Nat.testBit_lor, Nat.testBit_land, Nat.testBit_shiftLeft, ge_iff_le]
  rw [testBit_of_ge_32 s j hW hj, Bool.false_and, Bool.false_or]
  have : t.testBit (j - p * 3) = false :=
    Nat.testBit_eq_false_of_lt (lt_two_pow_of_lt_eight t _ ht (by omega))
  rw [this, Bool.and_false]

theorem add_pos_carry (A p c : Nat) (hA : A < 2 ^ 27) (hp : p < 32) (hc : c < 32) :
    (A + p * 2 ^ 27 + c * 2 ^ 27) % W = A + (p + c) % 32 * 2 ^ 27 := by
  have h27 : (2 : Nat) ^ 27 = 134217728 := by norm_num
  have hW : W = 4294967296 := by norm_num [W]
  rw [h27] at hA ⊢
  rw [hW]
  omega

theorem get_tile_congr_mod27 (x y i : Nat) (hi : i ≤ 8)
    (h : x % 2 ^ 27 = y % 2 ^ 27) : get_tile x i = get_tile y i := by
  rw [get_tile_eq x i (by omega), get_tile_eq y i (by omega),
    Nat.shiftRight_eq_div_pow, Nat.shiftRight_eq_div_pow]
  have key : ∀ z : Nat, z / 2 ^ (i * 3) % 8 = z % 2 ^ 27 / 2 ^ (i * 3) % 8 := by
    intro z
    rw [Nat.div_mod_eq_mod_mul_div, Nat.div_mod_eq_mod_mul_div]
    congr 1
    rw [Nat.mod_mod_of_dvd]
    refine ⟨2 ^ (27 - (i * 3 + 3)), ?_⟩
    have h8 : (8 : Nat) = 2 ^ 3 := by norm_num
    rw [h8, ← pow_add, ← pow_add]
    congr 1
    omega
  rw [key x, key y, h]

/-- Full characterisation of `moveBits`: position field, moved tile,
cleared target slot, untouched other slots, and 32-bit boundedness. -/
theorem moveCore (s p q r c : Nat) (hW : s < W) (hpos : get_blank_pos s = p)
    (hp : p ≤ 8) (hq : q ≤ 8) (hne : p ≠ q) (hblank : get_tile s p = 0)
    (hc : c < 32)
    (hrot : rotate_right (s &&& get_mask q) r = get_tile s q <<< (p * 3)) :
    get_blank_pos (moveBits s q r c) = (p + c) % 32 ∧
    get_tile (moveBits s q r c) p = get_tile s q ∧
    get_tile (moveBits s q r c) q = 0 ∧
    (∀ i, i ≤ 8 → i ≠ p → i ≠ q → get_tile (moveBits s q r c) i = get_tile s i) ∧
    moveBits s q r c < W := by
  have ht8 : get_tile s q < 8 := get_tile_lt s q (by omega)
  have hbw : moveBits s q r c =
      (((s &&& ((W - 1) ^^^ get_mask q)) ||| (get_tile s q <<< (p * 3)))
        + c * 2 ^ 27) % W := by
    rw [moveBits, hrot]
  set t := get_tile s q with htdef
  set mid := (s &&& ((W - 1) ^^^ get_mask q)) ||| (t <<< (p * 3)) with hmid
  -- the high bits of `mid` vanish, so `mid < W`
  have hmidlt : mid < W :=
    lt_W_of_testBit mid fun j hj => mid_testBit_high s q t p j hW ht8 hp hj
  -- the position field of `mid` is still `p`
  have hmid27 : mid >>> 27 = p := by
    have : mid >>> 27 = s >>> 27 := by
      apply Nat.eq_of_testBit_eq
      intro j
      rw [Nat.testBit_shiftRight, Nat.testBit_shiftRight]
      rcases Nat.lt_or_ge (27 + j) 32 with hj | hj
      · rw [mid_testBit s q t p (27 + j) hq hj]
        have h1 : decide (27 + j - q * 3 < 3) = false := decide_eq_false (by omega)
        have h2 : t.testBit (27 + j - p * 3) = false :=
          Nat.testBit_eq_false_of_lt (lt_two_pow_of_lt_eight t _ ht8 (by omega))
        rw [h1, h2, Bool.and_false, Bool.and_false, Bool.not_false,
          Bool.and_true, Bool.or_false]
      · rw [mid_testBit_high s q t p (27 + j) hW ht8 hp hj,
          testBit_of_ge_32 s (27 + j) hW hj]
    rw [this]
    exact hpos
  -- tile at the target slot `q` is cleared
  have htq : get_tile mid q = 0 := by
    apply tile_eq_of_testBit mid q 0 (by omega) (by norm_num)
    intro rr hrr
    rw [Nat.zero_testBit, mid_testBit s q t p (q * 3 + rr) hq (by omega)]
    have h1 : decide (q * 3 ≤ q * 3 + rr) = true := decide_eq_true (by omega)
    have h2 : decide (q * 3 + rr - q * 3 < 3) = true := decide_eq_true (by omega)
    rw [h1, h2, Bool.and_true, Bool.not_true, Bool.and_false, Bool.false_or]
    rcases Nat.lt_or_ge p q with hpq | hpq
    · have h3 : t.testBit (q * 3 + rr - p * 3) = false :=
        Nat.testBit_eq_false_of_lt (lt_two_pow_of_lt_eight t _ ht8 (by omega))
      rw [h3, Bool.and_false]
    · have hgt : q < p := by omega
      have h3 : decide (p * 3 ≤ q * 3 + rr) = false := decide_eq_false (by omega)
      rw [h3, Bool.false_and]
  -- tile at the old blank slot `p` now holds the extracted tile
  have htp : get_tile mid p = t := by
    apply tile_eq_of_testBit mid p t (by omega) ht8
    intro rr hrr
    rw [mid_testBit s q t p (p * 3 + rr) hq (by omega)]
    have hnq : (decide (q * 3 ≤ p * 3 + rr) && decide (p * 3 + rr - q * 3 < 3)) =
        false := by
      rcases Nat.lt_or_ge p q with hpq | hpq
      · have : decide (q * 3 ≤ p * 3 + rr) = false := decide_eq_false (by omega)
        rw [this, Bool.false_and]
      · have hgt : q < p := by omega
        have : decide (p * 3 + rr - q * 3 < 3) = false := decide_eq_false (by omega)
        rw [this, Bool.and_false]
    have hsb : s.testBit (p * 3 + rr) = false := by
      have := testBit_get_tile s p rr (by omega)
      rw [hblank, Nat.zero_testBit, decide_eq_true hrr, Bool.true_and] at this
      exact this.symm
    rw [hnq, hsb, Bool.not_false, Bool.false_and, Bool.false_or,
      decide_eq_true (by omega : p * 3 ≤ p * 3 + rr), Bool.true_and,
      Nat.add_sub_cancel_left]
  -- all other slots are untouched
  have hto : ∀ i, i ≤ 8 → i ≠ p → i ≠ q → get_tile mid i = get_tile s i := by
    intro i hi hip hiq
    apply tile_eq_of_testBit mid i (get_tile s i) (by omega)
      (get_tile_lt s i (by omega))
    intro rr hrr
    rw [mid_testBit s q t p (i * 3 + rr) hq (by omega)]
    have hnq : (decide (q * 3 ≤ i * 3 + rr) && decide (i * 3 + rr - q * 3 < 3)) =
        false := by
      rcases Nat.lt_or_ge i q with hpq | hpq
      · have : decide (q * 3 ≤ i * 3 + rr) = false := decide_eq_false (by omega)
        rw [this, Bool.false_and]
      · have hgt : q < i := by omega
        have : decide (i * 3 + rr - q * 3 < 3) = false := decide_eq_false (by omega)
        rw [this, Bool.and_false]
    have hnp : (decide (p * 3 ≤ i * 3 + rr) && t.testBit (i * 3 + rr - p * 3)) =
        false := by
      rcases Nat.lt_or_ge i p with hpq | hpq
      · have : decide (p * 3 ≤ i * 3 + rr) = false := decide_eq_false (by omega)
        rw [this, Bool.false_and]
      · have hgt : p < i := by omega
        have : t.testBit (i * 3 + rr - p * 3) = false :=
          Nat.testBit_eq_false_of_lt (lt_two_pow_of_lt_eight t _ ht8 (by omega))
        rw [this, Bool.and_false]
    rw [hnq, hnp, Bool.not_false, Bool.and_true, Bool.or_false]
    have := testBit_get_tile s i rr (by omega)
    rw [decide_eq_true hrr, Bool.true_and] at this
    exact this.symm
  -- decompose `mid` and push the position-field addition through
  have hdecomp : mid = mid % 2 ^ 27 + p * 2 ^ 27 := by
    have hdm := Nat.div_add_mod mid (2 ^ 27)
    have hdiv : mid / 2 ^ 27 = p := by
      rw [← Nat.shiftRight_eq_div_pow]; exact hmid27
    omega
  have hA : mid % 2 ^ 27 < 2 ^ 27 := Nat.mod_lt _ (by norm_num)
  have hfin : moveBits s q r c = mid % 2 ^ 27 + (p + c) % 32 * 2 ^ 27 := by
    rw [hbw]
    conv_lhs => rw [hdecomp]
    exact add_pos_carry _ p c hA (by omega) hc
  have hfin27 : moveBits s q r c % 2 ^ 27 = mid % 2 ^ 27 := by
    rw [hfin]
    have h27 : (2 : Nat) ^ 27 = 134217728 := by norm_num
    rw [h27] at hA ⊢
    omega
  have hfinpos : get_blank_pos (moveBits s q r c) = (p + c) % 32 := by
    rw [hfin]
    unfold get_blank_pos
    rw [Nat.shiftRight_eq_div_pow]
    have h27 : (2 : Nat) ^ 27 = 134217728 := by norm_num
    rw [h27] at hA ⊢
    have h32 : (p + c) % 32 < 32 := Nat.mod_lt _ (by norm_num)
    omega
  have hfintile : ∀ i, i ≤ 8 → get_tile (moveBits s q r c) i = get_tile mid i :=
    fun i hi => get_tile_congr_mod27 _ _ i hi (by rw [hfin27])
  refine ⟨hfinpos, ?_, ?_, ?_, ?_⟩
  · rw [hfintile p hp, htp]
  · rw [hfintile q hq, htq]
  · intro i hi hip hiq
    rw [hfintile i hi, hto i hi hip hiq]
  · rw [hfin]
    have h27 : (2 : Nat) ^ 27 = 134217728 := by norm_num
    have hWn : W = 4294967296 := by norm_num [W]
    rw [h27] at hA ⊢
    rw [hWn]
    have h32 : (p + c) % 32 < 32 := Nat.mod_lt _ (by norm_num)
    omega

theorem up_eq_moveBits (s : Nat) (hW : s < W) (hleg : 3 ≤ get_blank_pos s) :
    up s = moveBits s (get_blank_pos s - 3) 23 29 := by
  have h32 : get_blank_pos s < 32 := get_blank_pos_lt s hW
  have hpred : decide (3 ≤ get_blank_pos s) = true := decide_eq_true hleg
  unfold up moveFn moveBits
  simp only [hpred, if_true]
  have e1 : (((get_blank_pos s : Int) + -3) % (W : Int)).toNat =
      get_blank_pos s - 3 := by
    have hWi : (W : Int) = 4294967296 := by norm_num [W]
    rw [hWi]; omega
  have e2 : wrap_around (-3 * 3) = 23 := by decide
  have e3 : to_pos (((-3 : Int) % (W : Int)).toNat) = 29 * 2 ^ 27 := by decide
  rw [e1, e2, e3]

theorem down_eq_moveBits (s : Nat) (hW : s < W) (hleg : get_blank_pos s ≤ 5) :
    down s = moveBits s (get_blank_pos s + 3) 9 3 := by
  have h32 : get_blank_pos s < 32 := get_blank_pos_lt s hW
  have hpred : decide (get_blank_pos s ≤ 5) = true := decide_eq_true hleg
  unfold down moveFn moveBits
  simp only [hpred, if_true]
  have e1 : (((get_blank_pos s : Int) + 3) % (W : Int)).toNat =
      get_blank_pos s + 3 := by
    have hWi : (W : Int) = 4294967296 := by norm_num [W]
    rw [hWi]; omega
  have e2 : wrap_around (3 * 3) = 9 := by decide
  have e3 : to_pos (((3 : Int) % (W : Int)).toNat) = 3 * 2 ^ 27 := by decide
  rw [e1, e2, e3]

theorem left_eq_moveBits (s : Nat) (hW : s < W)
    (hleg : get_blank_pos s % 3 ≠ 0) :
    left s = moveBits s (get_blank_pos s - 1) 29 31 := by
  have h32 : get_blank_pos s < 32 := get_blank_pos_lt s hW
  have hpred : decide (get_blank_pos s % 3 ≠ 0) = true := decide_eq_true hleg
  unfold left moveFn moveBits
  simp only [hpred, if_true]
  have e1 : (((get_blank_pos s : Int) + -1) % (W : Int)).toNat =
      get_blank_pos s - 1 := by
    have hWi : (W : Int) = 4294967296 := by norm_num [W]
    rw [hWi]
    have h1 : 1 ≤ get_blank_pos s := by omega
    omega
  have e2 : wrap_around (-1 * 3) = 29 := by decide
  have e3 : to_pos (((-1 : Int) % (W : Int)).toNat) = 31 * 2 ^ 27 := by decide
  rw [e1, e2, e3]

theorem right_eq_moveBits (s : Nat) (hW : s < W)
    (hleg : get_blank_pos s % 3 ≠ 2) :
    right s = moveBits s (get_blank_pos s + 1) 3 1 := by
  have h32 : get_blank_pos s < 32 := get_blank_pos_lt s hW
  have hpred : decide (get_blank_pos s % 3 ≠ 2) = true := decide_eq_true hleg
  unfold right moveFn moveBits
  simp only [hpred, if_true]
  have e1 : (((get_blank_pos s : Int) + 1) % (W : Int)).toNat =
      get_blank_pos s + 1 := by
    have hWi : (W : Int) = 4294967296 := by norm_num [W]
    rw [hWi]; omega
  have e2 : wrap_around (1 * 3) = 3 := by decide
  have e3 : to_pos (((1 : Int) % (W : Int)).toNat) = 1 * 2 ^ 27 := by decide
  rw [e1, e2, e3]

/-- The full frame specification of a legal move on a well-formed state:
the blank-position field moves to the target slot, the old blank slot
receives exactly the tile extracted at the target, the target slot is
zeroed, every other 3-bit slot is unchanged, and the result is again a
32-bit value. -/
theorem move_spec (m : Move) (s : Nat) (h : wf s)
    (hleg : m.legal (get_blank_pos s) = true) :
    m.target (get_blank_pos s) ≤ 8 ∧ m.target (get_blank_pos s) ≠ get_blank_pos s ∧
    get_blank_pos (m.apply s) = m.target (get_blank_pos s) ∧
    get_tile (m.apply s) (get_blank_pos s) =
      get_tile s (m.target (get_blank_pos s)) ∧
    get_tile (m.apply s) (m.target (get_blank_pos s)) = 0 ∧
    (∀ i, i ≤ 8 → i ≠ get_blank_pos s → i ≠ m.target (get_blank_pos s) →
      get_tile (m.apply s) i = get_tile s i) ∧
    m.apply s < W := by
  obtain ⟨hW, hp, hblank⟩ := h
  cases m with
  | up =>
    replace hleg : 3 ≤ get_blank_pos s := of_decide_eq_true hleg
    simp only [Move.apply, Move.target]
    rw [up_eq_moveBits s hW hleg]
    have hrot : rotate_right (s &&& get_mask (get_blank_pos s - 3)) 23 =
        get_tile s (get_blank_pos s - 3) <<< (get_blank_pos s * 3) := by
      rw [and_mask s _ (by omega)]
      have h9 := rotate_right_toward_high (get_tile s (get_blank_pos s - 3))
        ((get_blank_pos s - 3) * 3) 9 (get_tile_lt s _ (by omega))
        (by norm_num) (by norm_num) (by omega)
      have h23 : (32 - 9 : Nat) = 23 := by norm_num
      rw [h23] at h9
      rw [h9]
      congr 1
      omega
    obtain ⟨h1, h2, h3, h4, h5⟩ := moveCore s (get_blank_pos s)
      (get_blank_pos s - 3) 23 29 hW rfl hp (by omega) (by omega) hblank
      (by norm_num) hrot
    have hmod : (get_blank_pos s + 29) % 32 = get_blank_pos s - 3 := by omega
    exact ⟨by omega, by omega, by rw [h1, hmod], h2, h3, h4, h5⟩
  | down =>
    replace hleg : get_blank_pos s ≤ 5 := of_decide_eq_true hleg
    simp only [Move.apply, Move.target]
    rw [down_eq_moveBits s hW hleg]
    have hrot : rotate_right (s &&& get_mask (get_blank_pos s + 3)) 9 =
        get_tile s (get_blank_pos s + 3) <<< (get_blank_pos s * 3) := by
      rw [and_mask s _ (by omega)]
      have h9 := rotate_right_toward_low (get_tile s (get_blank_pos s + 3))
        ((get_blank_pos s + 3) * 3) 9 (get_tile_lt s _ (by omega))
        (by norm_num) (by norm_num) (by omega) (by omega)
      rw [h9]
      congr 1
      omega
    obtain ⟨h1, h2, h3, h4, h5⟩ := moveCore s (get_blank_pos s)
      (get_blank_pos s + 3) 9 3 hW rfl hp (by omega) (by omega) hblank
      (by norm_num) hrot
    have hmod : (get_blank_pos s + 3) % 32 = get_blank_pos s + 3 := by omega
    exact ⟨by omega, by omega, by rw [h1, hmod], h2, h3, h4, h5⟩
  | left =>
    replace hleg : get_blank_pos s % 3 ≠ 0 := of_decide_eq_true hleg
    simp only [Move.apply, Move.target]
    rw [left_eq_moveBits s hW hleg]
    have hrot : rotate_right (s &&& get_mask (get_blank_pos s - 1)) 29 =
        get_tile s (get_blank_pos s - 1) <<< (get_blank_pos s * 3) := by
      rw [and_mask s _ (by omega)]
      have h9 := rotate_right_toward_high (get_tile s (get_blank_pos s - 1))
        ((get_blank_pos s - 1) * 3) 3 (get_tile_lt s _ (by omega))
        (by norm_num) (by norm_num) (by omega)
      have h29 : (32 - 3 : Nat) = 29 := by norm_num
      rw [h29] at h9
      rw [h9]
      congr 1
      omega
    obtain ⟨h1, h2, h3, h4, h5⟩ := moveCore s (get_blank_pos s)
      (get_blank_pos s - 1) 29 31 hW rfl hp (by omega) (by omega) hblank
      (by norm_num) hrot
    have hmod : (get_blank_pos s + 31) % 32 = get_blank_pos s - 1 := by omega
    exact ⟨by omega, by omega, by rw [h1, hmod], h2, h3, h4, h5⟩
  | right =>
    replace hleg : get_blank_pos s % 3 ≠ 2 := of_decide_eq_true hleg
    simp only [Move.apply, Move.target]
    rw [right_eq_moveBits s hW hleg]
    have hrot : rotate_right (s &&& get_mask (get_blank_pos s + 1)) 3 =
        get_tile s (get_blank_pos s + 1) <<< (get_blank_pos s * 3) := by
      rw [and_mask s _ (by omega)]
      have h9 := rotate_right_toward_low (get_tile s (get_blank_pos s + 1))
        ((get_blank_pos s + 1) * 3) 3 (get_tile_lt s _ (by omega))
        (by norm_num) (by norm_num) (by omega) (by omega)
      rw [h9]
      congr 1
      omega
    obtain ⟨h1, h2, h3, h4, h5⟩ := moveCore s (get_blank_pos s)
      (get_blank_pos s + 1) 3 1 hW rfl hp (by omega) (by omega) hblank
      (by norm_num) hrot
    have hmod : (get_blank_pos s + 1) % 32 = get_blank_pos s + 1 := by omega
    exact ⟨by omega, by omega, by rw [h1, hmod], h2, h3, h4, h5⟩

/-- An illegal move is a no-op: the boundary predicate fails, so the move
function returns its input unchanged. -/
theorem move_illegal (m : Move) (s : Nat)
    (h : m.legal (get_blank_pos s) = false) : m.apply s = s := by
  cases m with
  | up =>
    replace h : decide (3 ≤ get_blank_pos s) = false := h
    simp [Move.apply, up, moveFn, h]
  | down =>
    replace h : decide (get_blank_pos s ≤ 5) = false := h
    simp [Move.apply, down, moveFn, h]
  | left =>
    replace h : decide (get_blank_pos s % 3 ≠ 0) = false := h
    simp [Move.apply, left, moveFn, h]
  | right =>
    replace h : decide (get_blank_pos s % 3 ≠ 2) = false := h
    simp [Move.apply, right, moveFn, h]

/-- Every move (legal or not) preserves well-formedness. -/
theorem wf_move (m : Move) (s : Nat) (h : wf s) : wf (m.apply s) := by
  cases hv : m.legal (get_blank_pos s) with
  | false => rw [move_illegal m s hv]; exact h
  | true =>
    obtain ⟨ht8, _, h1, _, h3, _, h5⟩ := move_spec m s h hv
    exact ⟨h5, by rw [h1]; exact ht8, by rw [h1]; exact h3⟩

theorem tally_eq_sum (s : Nat) :
    tally s = ∑ i ∈ Finset.range 9, 9 ^ get_tile s i := rfl

/-- Every move preserves the multiset of the nine 3-bit fields of a
well-formed state (encoded through `tally`): a legal move swaps the moved
tile with the (zero) blank field, an illegal one does nothing. -/
theorem tally_move (m : Move) (s : Nat) (h : wf s) :
    tally (m.apply s) = tally s := by
  cases hv : m.legal (get_blank_pos s) with
  | false => rw [move_illegal m s hv]
  | true =>
    obtain ⟨htar, hne, h1, h2, h3, h4, _⟩ := move_spec m s h hv
    obtain ⟨hW, hp, hblank⟩ := h
    rw [tally_eq_sum, tally_eq_sum]
    have hq9 : m.target (get_blank_pos s) ∈ Finset.range 9 :=
      Finset.mem_range.mpr (by omega)
    have hp9 : get_blank_pos s ∈ Finset.range 9 := Finset.mem_range.mpr (by omega)
    have hcong : ∀ i ∈ Finset.range 9, 9 ^ get_tile (m.apply s) i =
        Function.update
          (Function.update (fun j => (9 : Nat) ^ get_tile s j) (get_blank_pos s)
            ((9 : Nat) ^ get_tile s (m.target (get_blank_pos s))))
          (m.target (get_blank_pos s)) ((9 : Nat) ^ get_tile s (get_blank_pos s)) i := by
      intro i hi
      rw [Finset.mem_range] at hi
      by_cases hiq : i = m.target (get_blank_pos s)
      · subst hiq
        rw [Function.update_same, h3, hblank]
      · rw [Function.update_noteq hiq]
        by_cases hip : i = get_blank_pos s
        · subst hip
          rw [Function.update_same, h2]
        · rw [Function.update_noteq hip]
          rw [h4 i (by omega) hip hiq]
    rw [Finset.sum_congr rfl hcong]
    rw [Finset.sum_update_of_mem hq9]
    rw [Finset.sdiff_singleton_eq_erase]
    have hpq : get_blank_pos s ∈
        (Finset.range 9).erase (m.target (get_blank_pos s)) :=
      Finset.mem_erase.mpr ⟨fun hc => hne hc.symm, hp9⟩
    rw [Finset.sum_update_of_mem hpq, Finset.sdiff_singleton_eq_erase]
    rw [← Finset.add_sum_erase _ _ hq9, ← Finset.add_sum_erase _ _ hpq]
    ring

/-! ### Claim theorems about the move generator -/

/-- C2: for every packed state `s` and every move `m` in
{up, down, left, right}, if `m` is illegal from `s` — up legal iff the
blank position `p ≥ 3`, down iff `p ≤ 5`, left iff `p % 3 ≠ 0`, right iff
`p % 3 ≠ 2` — then applying `m` returns `s` unchanged: the move is a
no-op, not a failure. -/
theorem c2_illegal_move_is_noop (s : Nat) (m : Move)
    (h : m.legal (get_blank_pos s) = false) : m.apply s = s :=
  move_illegal m s h

theorem c2_illegal_move_is_noop_witness :
    Move.legal Move.up (get_blank_pos 0) = false ∧ Move.apply Move.up 0 = 0 :=
  ⟨by decide, c2_illegal_move_is_noop 0 Move.up (by decide)⟩

/-- C3: for every well-formed packed state `s` (blank-position field in
0..8, blank slot's 3 bits zero) and every move `m` legal from `s`,
applying `m` and then its inverse move (up/down mutual inverses,
left/right mutual inverses) returns `s` exactly. -/
theorem c3_inverse_move_restores (s : Nat) (m : Move) (h : wf s)
    (hleg : m.legal (get_blank_pos s) = true) :
    m.inv.apply (m.apply s) = s := by
  obtain ⟨htar, hne, h1, h2, h3, h4, h5⟩ := move_spec m s h hleg
  have hwf' : wf (m.apply s) := wf_move m s h
  obtain ⟨hW, hp, hblank⟩ := h
  have hleg' : m.inv.legal (get_blank_pos (m.apply s)) = true := by
    rw [h1]
    cases m with
    | up =>
      replace hleg : 3 ≤ get_blank_pos s := of_decide_eq_true hleg
      simp only [Move.inv, Move.legal, Move.target]
      exact decide_eq_true (by omega)
    | down =>
      replace hleg : get_blank_pos s ≤ 5 := of_decide_eq_true hleg
      simp only [Move.inv, Move.legal, Move.target]
      exact decide_eq_true (by omega)
    | left =>
      replace hleg : get_blank_pos s % 3 ≠ 0 := of_decide_eq_true hleg
      simp only [Move.inv, Move.legal, Move.target]
      exact decide_eq_true (by omega)
    | right =>
      replace hleg : get_blank_pos s % 3 ≠ 2 := of_decide_eq_true hleg
      simp only [Move.inv, Move.legal, Move.target]
      exact decide_eq_true (by omega)
  have htarinv : m.inv.target (get_blank_pos (m.apply s)) = get_blank_pos s := by
    rw [h1]
    cases m with
    | up =>
      replace hleg : 3 ≤ get_blank_pos s := of_decide_eq_true hleg
      simp only [Move.inv, Move.target]
      omega
    | down =>
      simp only [Move.inv, Move.target]
      omega
    | left =>
      replace hleg : get_blank_pos s % 3 ≠ 0 := of_decide_eq_true hleg
      simp only [Move.inv, Move.target]
      omega
    | right =>
      simp only [Move.inv, Move.target]
      omega
  obtain ⟨gtar, gne, g1, g2, g3, g4, g5⟩ := move_spec m.inv (m.apply s) hwf' hleg'
  apply state_ext _ s g5 hW
  · rw [g1, htarinv]
  · intro i hi
    by_cases hip : i = get_blank_pos s
    · subst hip
      rw [← htarinv] at hblank ⊢
      rw [g3, hblank]
    · by_cases hiq : i = m.target (get_blank_pos s)
      · subst hiq
        have hq : m.target (get_blank_pos s) = get_blank_pos (m.apply s) := h1.symm
        rw [hq, g2, htarinv, h2, ← hq]
      · rw [g4 i hi (by rw [h1]; exact hiq) (by rw [htarinv]; exact hip),
          h4 i hi hip hiq]

theorem c3_inverse_move_restores_witness :
    wf 1073741824 ∧ Move.legal Move.up (get_blank_pos 1073741824) = true ∧
      Move.apply (Move.inv Move.up) (Move.apply Move.up 1073741824) = 1073741824 :=
  ⟨by decide, by decide, c3_inverse_move_restores 1073741824 Move.up (by decide)
    (by decide)⟩

/-- C9: for every legal move (position delta in {-3, -1, 1, 3}) from a
well-formed packed state with blank at `p`, the negative-shift wraparound
is exact: rotating the masked 3-bit field extracted at the target slot
right by `(32 + 3 * delta) mod 32` yields precisely that tile code placed
at bit positions [3p, 3p+3) — no bits wrap past the 32-bit word boundary
and no other bits are set. -/
theorem c9_wraparound_exact (s : Nat) (m : Move) (h : wf s)
    (hleg : m.legal (get_blank_pos s) = true) :
    rotate_right (s &&& get_mask (m.target (get_blank_pos s)))
        (wrap_around (m.delta * 3)) =
      get_tile s (m.target (get_blank_pos s)) <<< (get_blank_pos s * 3) := by
  obtain ⟨hW, hp, hblank⟩ := h
  cases m with
  | up =>
    replace hleg : 3 ≤ get_blank_pos s := of_decide_eq_true hleg
    have e2 : wrap_around (Move.delta Move.up * 3) = 23 := by decide
    rw [e2]
    simp only [Move.target]
    rw [and_mask s _ (by omega)]
    have h9 := rotate_right_toward_high (get_tile s (get_blank_pos s - 3))
      ((get_blank_pos s - 3) * 3) 9 (get_tile_lt s _ (by omega))
      (by norm_num) (by norm_num) (by omega)
    have h23 : (32 - 9 : Nat) = 23 := by norm_num
    rw [h23] at h9
    rw [h9]
    congr 1
    omega
  | down =>
    replace hleg : get_blank_pos s ≤ 5 := of_decide_eq_true hleg
    have e2 : wrap_around (Move.delta Move.down * 3) = 9 := by decide
    rw [e2]
    simp only [Move.target]
    rw [and_mask s _ (by omega)]
    have h9 := rotate_right_toward_low (get_tile s (get_blank_pos s + 3))
      ((get_blank_pos s + 3) * 3) 9 (get_tile_lt s _ (by omega))
      (by norm_num) (by norm_num) (by omega) (by omega)
    rw [h9]
    congr 1
    omega
  | left =>
    replace hleg : get_blank_pos s % 3 ≠ 0 := of_decide_eq_true hleg
    have e2 : wrap_around (Move.delta Move.left * 3) = 29 := by decide
    rw [e2]
    simp only [Move.target]
    rw [and_mask s _ (by omega)]
    have h9 := rotate_right_toward_high (get_tile s (get_blank_pos s - 1))
      ((get_blank_pos s - 1) * 3) 3 (get_tile_lt s _ (by omega))
      (by norm_num) (by norm_num) (by omega)
    have h29 : (32 - 3 : Nat) = 29 := by norm_num
    rw [h29] at h9
    rw [h9]
    congr 1
    omega
  | right =>
    replace hleg : get_blank_pos s % 3 ≠ 2 := of_decide_eq_true hleg
    have e2 : wrap_around (Move.delta Move.right * 3) = 3 := by decide
    rw [e2]
    simp only [Move.target]
    rw [and_mask s _ (by omega)]
    have h9 := rotate_right_toward_low (get_tile s (get_blank_pos s + 1))
      ((get_blank_pos s + 1) * 3) 3 (get_tile_lt s _ (by omega))
      (by norm_num) (by norm_num) (by omega) (by omega)
    rw [h9]
    congr 1
    omega

theorem c9_wraparound_exact_witness :
    wf 1073741824 ∧ Move.legal Move.left (get_blank_pos 1073741824) = true ∧
      rotate_right (1073741824 &&& get_mask (Move.target Move.left
          (get_blank_pos 1073741824)))
        (wrap_around (Move.delta Move.left * 3)) =
      get_tile 1073741824 (Move.target Move.left (get_blank_pos 1073741824)) <<<
        (get_blank_pos 1073741824 * 3) :=
  ⟨by decide, by decide,
    c9_wraparound_exact 1073741824 Move.left (by decide) (by decide)⟩

/-- C10: every legal move from a well-formed packed state with blank at
`p` moving to `p'`: in the result the blank-position field equals `p'`,
the 3-bit field at slot `p` holds exactly the tile code that was at slot
`p'`, the field at slot `p'` is zero (the canonical zero-blank-slot
representation is preserved), and the seven other slots are unchanged. -/
theorem c10_move_frame (s : Nat) (m : Move) (h : wf s)
    (hleg : m.legal (get_blank_pos s) = true) :
    get_blank_pos (m.apply s) = m.target (get_blank_pos s) ∧
    get_tile (m.apply s) (get_blank_pos s) =
      get_tile s (m.target (get_blank_pos s)) ∧
    get_tile (m.apply s) (m.target (get_blank_pos s)) = 0 ∧
    (∀ i, i ≤ 8 → i ≠ get_blank_pos s → i ≠ m.target (get_blank_pos s) →
      get_tile (m.apply s) i = get_tile s i) ∧
    wf (m.apply s) := by
  obtain ⟨_, _, h1, h2, h3, h4, _⟩ := move_spec m s h hleg
  exact ⟨h1, h2, h3, h4, wf_move m s h⟩

/-! ### Validation and solve-structure lemmas -/

/-- The source's `is_permutation` check agrees with genuine multiset
permutation whenever the two lists have the same length (which
`validate_input` has already ensured when it runs the check). -/
theorem is_permutation_iff (a b : List Char) (hlen : a.length = b.length) :
    is_permutation a b = true ↔ a.Perm b := by
  unfold is_permutation
  rw [List.all_eq_true]
  constructor
  · intro h
    have hsub : a.Subperm b := by
      rw [List.subperm_ext_iff]
      intro x hx
      have hc := h x hx
      rw [beq_iff_eq] at hc
      omega
    exact hsub.perm_of_length_le (by omega)
  · intro hperm x _
    rw [beq_iff_eq]
    exact List.perm_iff_count.mp hperm x

theorem solve_validate_error (fuel : Nat) (a b : List Char) (e : SolveError)
    (h : validate_input a b = .error e) : solve fuel a b = some (.error e) := by
  unfold solve
  rw [h]

/-- Unfolding `solve` after successful validation. -/
theorem solve_validate_ok_eq (fuel : Nat) (a b : List Char)
    (h : validate_input a b = .ok ()) :
    solve fuel a b =
      match searchLoop (pack a b (make_mapping a)).1 fuel
          ⟨[((pack a b (make_mapping a)).2, (pack a b (make_mapping a)).2)],
            [(pack a b (make_mapping a)).2], [], 0⟩ with
      | none => none
      | some (.error e) => some (.error e)
      | some (.ok st) => (build_trace st.arr fuel st.cur).map .ok := by
  unfold solve
  rw [h]

theorem searchLoop_no_alphabet (in_cipher fuel : Nat) (st : SearchState) :
    searchLoop in_cipher fuel st ≠ some (.error SolveError.AlphabetMismatch) := by
  induction fuel generalizing st with
  | zero => simp [searchLoop]
  | succ n ih =>
    unfold searchLoop
    by_cases hc : st.cur = in_cipher
    · simp [hc]
    · simp only [hc, if_false]
      cases hcur : st.current with
      | nil => simp
      | cons v rest => exact ih _

/-- `searchLoop` can only fail with `Unsolvable` (the empty-queue pop). -/
theorem searchLoop_error_unsolvable (in_cipher fuel : Nat) (st : SearchState)
    (e : SolveError) (h : searchLoop in_cipher fuel st = some (.error e)) :
    e = SolveError.Unsolvable := by
  induction fuel generalizing st with
  | zero => simp [searchLoop] at h
  | succ n ih =>
    unfold searchLoop at h
    by_cases hc : st.cur = in_cipher
    · simp [hc] at h
    · simp only [hc, if_false] at h
      cases hcur : st.current with
      | nil =>
        rw [hcur] at h
        simp at h
        exact h.symm
      | cons v rest =>
        rw [hcur] at h
        exact ih _ h

theorem c10_move_frame_witness :
    wf 1090176648 ∧ Move.legal Move.up (get_blank_pos 1090176648) = true ∧
      get_blank_pos (Move.apply Move.up 1090176648) =
        Move.target Move.up (get_blank_pos 1090176648) ∧
      get_tile (Move.apply Move.up 1090176648) (get_blank_pos 1090176648) =
        get_tile 1090176648 (Move.target Move.up (get_blank_pos 1090176648)) ∧
      get_tile (Move.apply Move.up 1090176648)
        (Move.target Move.up (get_blank_pos 1090176648)) = 0 :=
  ⟨by decide, by decide,
    (c10_move_frame 1090176648 Move.up (by decide) (by decide)).1,
    (c10_move_frame 1090176648 Move.up (by decide) (by decide)).2.1,
    (c10_move_frame 1090176648 Move.up (by decide) (by decide)).2.2.1⟩

/-! ### Claim theorems about encoding and validation -/

/-- C4 (the code evaluated at the failing input): encoding the valid board
`" 12345678"` (blank first) does not round-trip.  `make_mapping` assigns a
key to the blank too, so the ninth distinct symbol `'8'` receives code 8,
which does not fit in a 3-bit field: its `8 << 24` lands on bit 27 inside
the blank-position field.  The encoder then reports blank position 1
although the blank is at slot 0, and slot 8 decodes as code 0 (the code of
`'1'`) instead of `'8'`'s code. -/
theorem c4_roundtrip_fails_on_blank_first :
    get_blank_pos (pack " 12345678".toList " 12345678".toList
        (make_mapping " 12345678".toList)).1 = 1 ∧
    ((make_mapping " 12345678".toList).lookup '8').getD 0 = 8 ∧
    get_tile (pack " 12345678".toList " 12345678".toList
        (make_mapping " 12345678".toList)).1 8 = 0 := by decide

/-- C5 (counterexample): the input pair `"111111111"`, `"111111111"` —
nine copies of one non-blank symbol, so not a valid permutation of 9
distinct symbols including the blank — is not rejected: `solve` returns
`Ok` with the one-state trace `[0]` instead of failing with
`AlphabetMismatch`. -/
theorem c5_counterexample_duplicates_accepted :
    solve 9 "111111111".toList "111111111".toList = some (.ok [0]) ∧
    solve 9 "111111111".toList "111111111".toList ≠
      some (.error SolveError.AlphabetMismatch) := by decide

/-- C5 (amended): for every pair of length-9 sequences, `solve` fails with
`AlphabetMismatch` if and only if the two sequences are not permutations
of each other as multisets.  Repeated non-blank symbols do not trigger the
error when the two multisets agree. -/
theorem c5_alphabet_mismatch_iff_not_perm (fuel : Nat) (a b : List Char)
    (ha : a.length = 9) (hb : b.length = 9) :
    solve fuel a b = some (.error SolveError.AlphabetMismatch) ↔ ¬ a.Perm b := by
  constructor
  · intro hsol hperm
    have hv : validate_input a b = .ok () := by
      unfold validate_input
      rw [if_pos ha, if_pos hb,
        if_pos ((is_permutation_iff a b (by omega)).mpr hperm)]
    rw [solve_validate_ok_eq fuel a b hv] at hsol
    refine absurd ?_ (searchLoop_no_alphabet (pack a b (make_mapping a)).1 fuel
      ⟨[((pack a b (make_mapping a)).2, (pack a b (make_mapping a)).2)],
        [(pack a b (make_mapping a)).2], [], 0⟩)
    exact (by
      rcases hres : searchLoop (pack a b (make_mapping a)).1 fuel
          ⟨[((pack a b (make_mapping a)).2, (pack a b (make_mapping a)).2)],
            [(pack a b (make_mapping a)).2], [], 0⟩ with _ | r
      · rw [hres] at hsol
        cases hsol
      · rw [hres] at hsol
        cases r with
        | error e =>
          have he : (some (Except.error e) :
              Option (Except SolveError (List Nat))) =
              some (.error SolveError.AlphabetMismatch) := hsol
          cases he
          rfl
        | ok st =>
          exfalso
          have hsol' : (build_trace st.arr fuel st.cur).map Except.ok =
              some (.error SolveError.AlphabetMismatch) := hsol
          rcases hbt : build_trace st.arr fuel st.cur with _ | t
          · rw [hbt] at hsol'
            cases hsol'
          · rw [hbt] at hsol'
            simp at hsol')
  · intro hnp
    have hv : validate_input a b = .error .AlphabetMismatch := by
      unfold validate_input
      rw [if_pos ha, if_pos hb, if_neg]
      intro hip
      exact hnp ((is_permutation_iff a b (by omega)).mp hip)
    exact solve_validate_error fuel a b _ hv

theorem c5_alphabet_mismatch_iff_not_perm_witness :
    solve 1 "123456789".toList "12345678x".toList =
      some (.error SolveError.AlphabetMismatch) :=
  (c5_alphabet_mismatch_iff_not_perm 1 _ _ (by decide) (by decide)).mpr (by decide)

/-- C6 (counterexample): the two-vector frontier is not a strict FIFO
queue.  On the program's own input (`solve("12345678 ", " 87654321")`)
the expansion orders diverge at the second expanded state: the code pops
`current_moves` from its back, so after the root it expands the most
recently enqueued successor, while a strict FIFO dequeues the earliest
enqueued one. -/
theorem c6_not_strict_fifo :
    solveTrail 2 "12345678 ".toList " 87654321".toList ≠
      solveFifoTrail 2 "12345678 ".toList " 87654321".toList := by decide

/-- C6 (amended): the frontier is FIFO across levels but LIFO inside a
level.  Concretely, on the program's own input the first expansion pushes
`down goal` and then `right goal` (the stored `future` vector lists the
most recent push first), the code's second expansion takes the LAST push
`right goal`, and the strict-FIFO reference takes the FIRST push
`down goal`; the two are distinct states, so the dequeue order is not the
enqueue order. -/
theorem c6_level_lifo_characterisation :
    (expand [(2739128, 2739128)] [] 2739128).2 = [right 2739128, down 2739128] ∧
    solveTrail 2 "12345678 ".toList " 87654321".toList =
      [2739128, right 2739128] ∧
    solveFifoTrail 2 "12345678 ".toList " 87654321".toList =
      [2739128, down 2739128] ∧
    right 2739128 ≠ down 2739128 := by decide

/-! ### Search-engine invariants and termination -/

theorem moveFn_lt_W (pred : Nat → Bool) (d : Int) (s : Nat) (h : s < W) :
    moveFn pred d s < W := by
  have hW : 0 < W := by norm_num [W]
  unfold moveFn
  dsimp only
  split
  · exact Nat.mod_lt _ hW
  · exact h

theorem move_lt_W (m : Move) (s : Nat) (h : s < W) : m.apply s < W := by
  cases m with
  | up => exact moveFn_lt_W (fun pos => decide (3 ≤ pos)) (-3) s h
  | down => exact moveFn_lt_W (fun pos => decide (pos ≤ 5)) 3 s h
  | left => exact moveFn_lt_W (fun pos => decide (pos % 3 ≠ 0)) (-1) s h
  | right => exact moveFn_lt_W (fun pos => decide (pos % 3 ≠ 2)) 1 s h

theorem or_lt_W (a b : Nat) (ha : a < W) (hb : b < W) : (a ||| b) < W := by
  apply lt_W_of_testBit
  intro j hj
  rw [Nat.testBit_lor, testBit_of_ge_32 a j ha hj, testBit_of_ge_32 b j hb hj]
  rfl

theorem pack_one_lt (mapping : List (Char × Nat)) (idx : Nat) (ch : Char) :
    pack_one mapping idx ch < W := by
  unfold pack_one
  split
  · unfold to_pos
    exact Nat.mod_lt _ (by norm_num [W])
  · exact Nat.mod_lt _ (by norm_num [W])

theorem pack_aux_lt (mapping : List (Char × Nat)) :
    ∀ (l : List (Char × Char)) (idx : Nat) (acc : Nat × Nat),
      acc.1 < W → acc.2 < W →
      (pack_aux mapping idx l acc).1 < W ∧ (pack_aux mapping idx l acc).2 < W := by
  intro l
  induction l with
  | nil => exact fun idx acc h1 h2 => ⟨h1, h2⟩
  | cons hd tl ih =>
    intro idx acc h1 h2
    obtain ⟨c1, c2⟩ := hd
    obtain ⟨a, b⟩ := acc
    exact ih (idx + 1) _ (or_lt_W _ _ h1 (pack_one_lt mapping idx c1))
      (or_lt_W _ _ h2 (pack_one_lt mapping idx c2))

theorem pack_lt (input output : List Char) (mapping : List (Char × Nat)) :
    (pack input output mapping).1 < W ∧ (pack input output mapping).2 < W :=
  pack_aux_lt mapping _ 0 (0, 0) (by norm_num [W]) (by norm_num [W])

theorem arr_length_le_W (arr : List (Nat × Nat))
    (hnd : (arr.map Prod.fst).Nodup) (hlt : ∀ kv ∈ arr, kv.1 < W) :
    arr.length ≤ W := by
  have h1 : (arr.map Prod.fst).length ≤ W := by
    have h2 : (arr.map Prod.fst).toFinset ⊆ Finset.range W := by
      intro x hx
      rw [List.mem_toFinset] at hx
      rw [Finset.mem_range]
      obtain ⟨kv, hkv, rfl⟩ := List.mem_map.mp hx
      exact hlt kv hkv
    calc (arr.map Prod.fst).length = (arr.map Prod.fst).toFinset.card :=
          (List.toFinset_card_of_nodup hnd).symm
      _ ≤ (Finset.range W).card := Finset.card_le_card h2
      _ = W := Finset.card_range W
  simpa using h1

theorem insertNew_invariants (cur v : Nat) (st : List (Nat × Nat) × List Nat) :
    st.1.length ≤ (insertNew cur v st).1.length ∧
    (insertNew cur v st).1.length + st.2.length =
      st.1.length + (insertNew cur v st).2.length ∧
    ((st.1.map Prod.fst).Nodup → ((insertNew cur v st).1.map Prod.fst).Nodup) ∧
    (∀ kv ∈ (insertNew cur v st).1, kv ∈ st.1 ∨ kv = (v, cur)) ∧
    (∀ x ∈ (insertNew cur v st).2, x ∈ st.2 ∨ x = v) := by
  unfold insertNew
  split
  · exact ⟨le_refl _, by omega, id, fun kv h => Or.inl h, fun x h => Or.inl h⟩
  · rename_i hni
    refine ⟨by simp, by simp only [List.length_cons]; omega, ?_, ?_, ?_⟩
    · intro hnd
      simp only [List.map_cons]
      refine List.nodup_cons.mpr ⟨?_, hnd⟩
      intro hmem
      obtain ⟨kv, hkv, hfst⟩ := List.mem_map.mp hmem
      have hnone : st.1.lookup v = none := by
        cases hl : st.1.lookup v with
        | none => rfl
        | some w => rw [hl] at hni; simp at hni
      rw [List.lookup_eq_none_iff] at hnone
      have := hnone kv hkv
      rw [hfst] at this
      simp at this
    · intro kv h
      rcases List.mem_cons.mp h with h1 | h1
      · right; exact h1
      · left; exact h1
    · intro x h
      rcases List.mem_cons.mp h with h1 | h1
      · right; exact h1
      · left; exact h1

theorem expand_invariants (arr : List (Nat × Nat)) (fut : List Nat) (cur : Nat) :
    arr.length ≤ (expand arr fut cur).1.length ∧
    (expand arr fut cur).1.length + fut.length =
      arr.length + (expand arr fut cur).2.length ∧
    ((arr.map Prod.fst).Nodup → ((expand arr fut cur).1.map Prod.fst).Nodup) ∧
    (∀ kv ∈ (expand arr fut cur).1, kv ∈ arr ∨ ∃ m : Move, kv = (m.apply cur, cur)) ∧
    (∀ x ∈ (expand arr fut cur).2, x ∈ fut ∨ ∃ m : Move, x = m.apply cur) := by
  unfold expand
  obtain ⟨a1, b1, c1, d1, e1⟩ := insertNew_invariants cur (up cur) (arr, fut)
  dsimp only at a1 b1 c1 d1 e1
  obtain ⟨a2, b2, c2, d2, e2⟩ :=
    insertNew_invariants cur (down cur) (insertNew cur (up cur) (arr, fut))
  obtain ⟨a3, b3, c3, d3, e3⟩ := insertNew_invariants cur (left cur)
    (insertNew cur (down cur) (insertNew cur (up cur) (arr, fut)))
  obtain ⟨a4, b4, c4, d4, e4⟩ := insertNew_invariants cur (right cur)
    (insertNew cur (left cur) (insertNew cur (down cur)
      (insertNew cur (up cur) (arr, fut))))
  refine ⟨by omega, by omega, fun h => c4 (c3 (c2 (c1 h))), ?_, ?_⟩
  · intro kv h
    rcases d4 kv h with h' | h'
    · rcases d3 kv h' with h'' | h''
      · rcases d2 kv h'' with h3' | h3'
        · rcases d1 kv h3' with h4' | h4'
          · exact Or.inl h4'
          · exact Or.inr ⟨Move.up, h4'⟩
        · exact Or.inr ⟨Move.down, h3'⟩
      · exact Or.inr ⟨Move.left, h''⟩
    · exact Or.inr ⟨Move.right, h'⟩
  · intro x h
    rcases e4 x h with h' | h'
    · rcases e3 x h' with h'' | h''
      · rcases e2 x h'' with h3' | h3'
        · rcases e1 x h3' with h4' | h4'
          · exact Or.inl h4'
          · exact Or.inr ⟨Move.up, h4'⟩
        · exact Or.inr ⟨Move.down, h3'⟩
      · exact Or.inr ⟨Move.left, h''⟩
    · exact Or.inr ⟨Move.right, h'⟩

theorem loopStep_eq (st : SearchState) (v : Nat) (rest : List Nat) :
    loopStep st v rest =
      if rest.isEmpty then
        ⟨(expand st.arr st.future v).1, (expand st.arr st.future v).2, [], v⟩
      else ⟨(expand st.arr st.future v).1, rest, (expand st.arr st.future v).2, v⟩ :=
  rfl

/-- With enough fuel the search loop always produces an answer: every
iteration either inserts new states into the bounded predecessor map or
shrinks the queues. -/
theorem searchLoop_terminates (in_cipher : Nat) : ∀ (fuel : Nat) (st : SearchState),
    (st.arr.map Prod.fst).Nodup → (∀ kv ∈ st.arr, kv.1 < W) →
    (∀ x ∈ st.current, x < W) → (∀ x ∈ st.future, x < W) →
    5 * (W - st.arr.length) + st.current.length + st.future.length < fuel →
    searchLoop in_cipher fuel st ≠ none := by
  intro fuel
  induction fuel with
  | zero => intro st _ _ _ _ hm; omega
  | succ n ih =>
    intro st hnd hkW hcW hfW hm
    unfold searchLoop
    by_cases hc : st.cur = in_cipher
    · simp [hc]
    · simp only [hc, if_false]
      cases hcur : st.current with
      | nil => simp
      | cons v rest =>
        show searchLoop in_cipher n (loopStep st v rest) ≠ none
        have hvW : v < W := hcW v (by rw [hcur]; exact List.mem_cons_self _ _)
        obtain ⟨ha, hb, hcnd, hd, he⟩ := expand_invariants st.arr st.future v
        have hnd' : ((expand st.arr st.future v).1.map Prod.fst).Nodup := hcnd hnd
        have hkW' : ∀ kv ∈ (expand st.arr st.future v).1, kv.1 < W := by
          intro kv hkv
          rcases hd kv hkv with h1 | ⟨m, rfl⟩
          · exact hkW kv h1
          · exact move_lt_W m v hvW
        have hfW' : ∀ x ∈ (expand st.arr st.future v).2, x < W := by
          intro x hx
          rcases he x hx with h1 | ⟨m, rfl⟩
          · exact hfW x h1
          · exact move_lt_W m v hvW
        have hlen' : (expand st.arr st.future v).1.length ≤ W :=
          arr_length_le_W _ hnd' hkW'
        have hrestW : ∀ x ∈ rest, x < W := fun x hx =>
          hcW x (by rw [hcur]; exact List.mem_cons_of_mem _ hx)
        have hclen : st.current.length = rest.length + 1 := by rw [hcur]; rfl
        rw [loopStep_eq]
        by_cases hre : rest.isEmpty
        · rw [if_pos hre]
          have hrnil : rest = [] := List.isEmpty_iff.mp hre
          apply ih _ hnd' hkW' hfW' (by intro x hx; cases hx)
          subst hrnil
          simp only [List.length_nil]
          omega
        · rw [if_neg hre]
          apply ih _ hnd' hkW' hrestW hfW'
          simp only []
          omega

/-- If the start cipher is unreachable from the root, the loop can only
answer `Unsolvable`. -/
theorem searchLoop_unreachable (root in_cipher : Nat)
    (hur : ¬ Reach root in_cipher) : ∀ (fuel : Nat) (st : SearchState),
    (∀ x ∈ st.current, Reach root x) → (∀ x ∈ st.future, Reach root x) →
    st.cur ≠ in_cipher →
    ∀ r, searchLoop in_cipher fuel st = some r →
      r = .error SolveError.Unsolvable := by
  intro fuel
  induction fuel with
  | zero => intro st _ _ _ r h; simp [searchLoop] at h
  | succ n ih =>
    intro st hcR hfR hcne r h
    unfold searchLoop at h
    rw [if_neg hcne] at h
    cases hcur : st.current with
    | nil =>
      rw [hcur] at h
      cases h
      rfl
    | cons v rest =>
      rw [hcur] at h
      have hvR : Reach root v := hcR v (by rw [hcur]; exact List.mem_cons_self _ _)
      obtain ⟨_, _, _, _, he⟩ := expand_invariants st.arr st.future v
      apply ih (loopStep st v rest) ?_ ?_ ?_ r h
      · rw [loopStep_eq]
        split
        · intro x hx
          rcases he x hx with h1 | ⟨m, rfl⟩
          · exact hfR x h1
          · exact Reach.tail hvR m rfl
        · intro x hx
          exact hcR x (by rw [hcur]; exact List.mem_cons_of_mem _ hx)
      · rw [loopStep_eq]
        split
        · intro x hx; cases hx
        · intro x hx
          rcases he x hx with h1 | ⟨m, rfl⟩
          · exact hfR x h1
          · exact Reach.tail hvR m rfl
      · rw [loopStep_eq]
        split <;>
          exact fun heq => hur (by rw [← heq]; exact hvR)

/-- Every state reachable from a well-formed root is well-formed. -/
theorem reach_wf (root x : Nat) (hroot : wf root) (h : Reach root x) : wf x := by
  induction h with
  | refl => exact hroot
  | tail hst m hm ih => rw [← hm]; exact wf_move m _ ih

/-- The field multiset (through `tally`) is constant on the component of a
well-formed root. -/
theorem reach_tally (root x : Nat) (hroot : wf root) (h : Reach root x) :
    tally x = tally root := by
  induction h with
  | refl => rfl
  | tail hst m hm ih =>
    rw [← hm, tally_move m _ (reach_wf root _ hroot hst)]
    exact ih

/-- The central unsolvability theorem: on validated input whose start
cipher is nonzero (0 is the loop's initial sentinel; for validated inputs
a zero start cipher forces an identical goal cipher) and unreachable from
the goal cipher, `solve` terminates with the typed `Unsolvable` error for
every sufficient fuel. -/
theorem solve_unsolvable_of_unreachable (input output : List Char) (fuel : Nat)
    (hv : validate_input input output = .ok ())
    (hnz : (pack input output (make_mapping input)).1 ≠ 0)
    (hur : ¬ Reach (pack input output (make_mapping input)).2
      (pack input output (make_mapping input)).1)
    (hfuel : 5 * W + 1 ≤ fuel) :
    solve fuel input output = some (.error SolveError.Unsolvable) := by
  rw [solve_validate_ok_eq fuel input output hv]
  have hoW : (pack input output (make_mapping input)).2 < W :=
    (pack_lt input output (make_mapping input)).2
  have hW1 : 1 ≤ W := by norm_num [W]
  have hterm := searchLoop_terminates (pack input output (make_mapping input)).1
    fuel ⟨[((pack input output (make_mapping input)).2,
      (pack input output (make_mapping input)).2)],
      [(pack input output (make_mapping input)).2], [], 0⟩
    (by simp)
    (by
      intro kv hkv
      rcases List.mem_singleton.mp hkv with rfl
      exact hoW)
    (by
      intro x hx
      rcases List.mem_singleton.mp hx with rfl
      exact hoW)
    (by intro x hx; cases hx)
    (by simp only [List.length_singleton, List.length_nil]; omega)
  have hval := searchLoop_unreachable (pack input output (make_mapping input)).2
    (pack input output (make_mapping input)).1 hur fuel
    ⟨[((pack input output (make_mapping input)).2,
      (pack input output (make_mapping input)).2)],
      [(pack input output (make_mapping input)).2], [], 0⟩
    (by
      intro x hx
      rcases List.mem_singleton.mp hx with rfl
      exact Reach.refl)
    (by intro x hx; cases hx)
    (fun heq => hnz heq.symm)
  rcases hres : searchLoop (pack input output (make_mapping input)).1 fuel
      ⟨[((pack input output (make_mapping input)).2,
        (pack input output (make_mapping input)).2)],
        [(pack input output (make_mapping input)).2], [], 0⟩ with _ | r
  · exact absurd hres hterm
  · have hr := hval r hres
    subst hr
    rfl

theorem validate_error_ne_unsolvable (a b : List Char) (e : SolveError)
    (h : validate_input a b = .error e) : e ≠ SolveError.Unsolvable := by
  unfold validate_input at h
  split at h
  · split at h
    · split at h
      · cases h
      · cases h; decide
    · cases h; decide
  · cases h; decide

/-- Whenever `solve` answers `Unsolvable`, the search has already run: the
ghost expansion trail is non-empty (its first element is the goal cipher,
popped and expanded in the first loop iteration). -/
theorem solveTrail_pos_of_unsolvable (fuel : Nat) (a b : List Char)
    (h : solve fuel a b = some (.error SolveError.Unsolvable)) :
    1 ≤ (solveTrail fuel a b).length := by
  cases hv : validate_input a b with
  | error e =>
    rw [solve_validate_error fuel a b e hv] at h
    have he : e = SolveError.Unsolvable := by cases h; rfl
    exact absurd he (validate_error_ne_unsolvable a b e hv)
  | ok u =>
    cases u
    rw [solve_validate_ok_eq fuel a b hv] at h
    have htr : solveTrail fuel a b = searchTrail (pack a b (make_mapping a)).1
        fuel ⟨[((pack a b (make_mapping a)).2, (pack a b (make_mapping a)).2)],
          [(pack a b (make_mapping a)).2], [], 0⟩ := by
      unfold solveTrail
      rw [hv]
    rw [htr]
    cases fuel with
    | zero =>
      rw [show searchLoop (pack a b (make_mapping a)).1 0
          ⟨[((pack a b (make_mapping a)).2, (pack a b (make_mapping a)).2)],
            [(pack a b (make_mapping a)).2], [], 0⟩ = none from rfl] at h
      cases h
    | succ n =>
      by_cases hc : (0 : Nat) = (pack a b (make_mapping a)).1
      · exfalso
        have hsl : searchLoop (pack a b (make_mapping a)).1 (n + 1)
            ⟨[((pack a b (make_mapping a)).2, (pack a b (make_mapping a)).2)],
              [(pack a b (make_mapping a)).2], [], 0⟩ =
            some (.ok ⟨[((pack a b (make_mapping a)).2,
              (pack a b (make_mapping a)).2)],
              [(pack a b (make_mapping a)).2], [], 0⟩) := by
          unfold searchLoop
          rw [if_pos hc]
        rw [hsl] at h
        have h' : (build_trace [((pack a b (make_mapping a)).2,
            (pack a b (make_mapping a)).2)] (n + 1) 0).map Except.ok =
            some (.error SolveError.Unsolvable) := h
        rcases hbt : build_trace [((pack a b (make_mapping a)).2,
            (pack a b (make_mapping a)).2)] (n + 1) 0 with _ | t
        · rw [hbt] at h'
          cases h'
        · rw [hbt] at h'
          simp at h'
      · unfold searchTrail
        rw [if_neg hc]
        simp

/-! ### A zero start cipher forces a zero goal cipher -/

theorem mem_of_lookup_char (l : List (Char × Nat)) (c : Char) (k : Nat)
    (h : l.lookup c = some k) : (c, k) ∈ l := by
  obtain ⟨l1, l2, rfl, -⟩ := List.lookup_eq_some_iff.mp h
  exact List.mem_append.mpr (Or.inr (List.mem_cons_self _ _))

theorem make_mapping_aux_lookup_preserved (cs : List Char) :
    ∀ (m : List (Char × Nat)) (key : Nat) (c : Char) (v : Nat),
      m.lookup c = some v → (make_mapping_aux cs m key).lookup c = some v := by
  induction cs with
  | nil => exact fun m key c v h => h
  | cons c2 cs2 ih =>
    intro m key c v h
    unfold make_mapping_aux
    split
    · exact ih m key c v h
    · apply ih
      rw [List.lookup_append, h]
      rfl

theorem make_mapping_aux_lookup_bound (cs : List Char) :
    ∀ (m : List (Char × Nat)) (key : Nat),
      (∀ kv ∈ m, kv.2 < key) →
      ∀ kv ∈ make_mapping_aux cs m key, kv.2 < key + cs.length := by
  induction cs with
  | nil =>
    intro m key hm kv hkv
    have := hm kv hkv
    simp only [List.length_nil]
    omega
  | cons c2 cs2 ih =>
    intro m key hm kv hkv
    unfold make_mapping_aux at hkv
    split at hkv
    · have := ih m key hm kv hkv
      simp only [List.length_cons]
      omega
    · have hpre : ∀ kv2 ∈ m ++ [(c2, key)], kv2.2 < key + 1 := by
        intro kv2 h2
        rcases List.mem_append.mp h2 with h3 | h3
        · have := hm kv2 h3; omega
        · rw [List.mem_singleton.mp h3]; omega
      have := ih _ (key + 1) hpre kv hkv
      simp only [List.length_cons]
      omega

theorem make_mapping_aux_lookup_source (cs : List Char) :
    ∀ (m : List (Char × Nat)) (key : Nat),
      (∀ kv ∈ m, kv.2 < key) →
      ∀ (c : Char) (v : Nat),
        (make_mapping_aux cs m key).lookup c = some v → (c, v) ∈ m ∨ key ≤ v := by
  induction cs with
  | nil => exact fun m key _ c v h => Or.inl (mem_of_lookup_char _ _ _ h)
  | cons c2 cs2 ih =>
    intro m key hm c v h
    unfold make_mapping_aux at h
    split at h
    · exact ih m key hm c v h
    · have hpre : ∀ kv2 ∈ m ++ [(c2, key)], kv2.2 < key + 1 := by
        intro kv2 h2
        rcases List.mem_append.mp h2 with h3 | h3
        · have := hm kv2 h3; omega
        · rw [List.mem_singleton.mp h3]; omega
      rcases ih _ (key + 1) hpre c v h with h1 | h1
      · rcases List.mem_append.mp h1 with h2 | h2
        · exact Or.inl h2
        · have h3 := List.mem_singleton.mp h2
          have hveq : v = key := by cases h3; rfl
          omega
      · omega

theorem make_mapping_aux_total (cs : List Char) :
    ∀ (m : List (Char × Nat)) (key : Nat) (c : Char), c ∈ cs →
      ((make_mapping_aux cs m key).lookup c).isSome = true := by
  induction cs with
  | nil => intro _ _ _ h; cases h
  | cons c2 cs2 ih =>
    intro m key c hc
    rcases List.mem_cons.mp hc with rfl | hmem
    · unfold make_mapping_aux
      split
      · rename_i hs
        obtain ⟨v, hv⟩ := Option.isSome_iff_exists.mp hs
        rw [make_mapping_aux_lookup_preserved cs2 m key c v hv]
        rfl
      · rename_i hs
        have hnone : m.lookup c = none := by
          cases hl : m.lookup c with
          | none => rfl
          | some w => rw [hl] at hs; simp at hs
        have hin : (m ++ [(c, key)]).lookup c = some key := by
          rw [List.lookup_append, hnone]
          simp [List.lookup_cons]
        rw [make_mapping_aux_lookup_preserved cs2 _ (key + 1) c key hin]
        rfl
    · unfold make_mapping_aux
      split
      · exact ih _ _ c hmem
      · exact ih _ _ c hmem

theorem make_mapping_head_zero (c0 : Char) (rest : List Char) :
    (make_mapping (c0 :: rest)).lookup c0 = some 0 := by
  have heq : make_mapping (c0 :: rest) = make_mapping_aux rest [(c0, 0)] 1 := by
    rw [make_mapping, make_mapping_aux]
    simp [List.lookup]
  rw [heq]
  apply make_mapping_aux_lookup_preserved
  simp [List.lookup_cons]

theorem make_mapping_zero_unique (c0 : Char) (rest : List Char) (c : Char)
    (h : (make_mapping (c0 :: rest)).lookup c = some 0) : c = c0 := by
  have heq : make_mapping (c0 :: rest) = make_mapping_aux rest [(c0, 0)] 1 := by
    rw [make_mapping, make_mapping_aux]
    simp [List.lookup]
  rw [heq] at h
  have hpre : ∀ kv ∈ [(c0, (0 : Nat))], kv.2 < 1 := by
    intro kv hkv
    rw [List.mem_singleton.mp hkv]
    omega
  rcases make_mapping_aux_lookup_source rest [(c0, 0)] 1 hpre c 0 h with h1 | h1
  · have h2 := List.mem_singleton.mp h1
    cases h2
    rfl
  · omega

theorem make_mapping_code_lt (input : List Char) (c : Char) (v : Nat)
    (h : (make_mapping input).lookup c = some v) : v < input.length := by
  have hb := make_mapping_aux_lookup_bound input [] 0 (by intro kv hkv; cases hkv)
  have := hb (c, v) (mem_of_lookup_char _ _ _ h)
  omega

theorem or_eq_zero_iff (a b : Nat) : a ||| b = 0 ↔ a = 0 ∧ b = 0 := by
  constructor
  · intro h
    constructor <;> apply Nat.eq_of_testBit_eq <;> intro j <;>
      rw [Nat.zero_testBit] <;>
      have hj := congrArg (fun x => Nat.testBit x j) h <;>
      simp only [Nat.testBit_lor, Nat.zero_testBit, Bool.or_eq_false_iff] at hj
    · exact hj.1
    · exact hj.2
  · rintro ⟨rfl, rfl⟩
    rfl

theorem exists_nine (l : List Char) (h : l.length = 9) :
    ∃ a b c d e f g i j, l = [a, b, c, d, e, f, g, i, j] := by
  match l, h with
  | [a, b, c, d, e, f, g, i, j], _ => exact ⟨a, b, c, d, e, f, g, i, j, rfl⟩

/-- A vanishing non-initial packed contribution forces the character to be
the input's first character (code 0), not the blank. -/
theorem pack_one_zero_nonfirst (c0 : Char) (rest : List Char) (c : Char)
    (idx : Nat) (hidx : 1 ≤ idx) (hidx8 : idx ≤ 8) (hlen : rest.length = 8)
    (hc : c ∈ c0 :: rest)
    (hz : pack_one (make_mapping (c0 :: rest)) idx c = 0) : c0 = c ∧ c ≠ ' ' := by
  unfold pack_one at hz
  split at hz
  · exfalso
    unfold to_pos at hz
    rw [Nat.shiftLeft_eq] at hz
    have hWe : W = 4294967296 := by norm_num [W]
    have h27 : (2 : Nat) ^ 27 = 134217728 := by norm_num
    rw [hWe, h27] at hz
    omega
  · rename_i hsp
    have htot : ((make_mapping (c0 :: rest)).lookup c).isSome = true :=
      make_mapping_aux_total (c0 :: rest) [] 0 c hc
    obtain ⟨v, hvv⟩ := Option.isSome_iff_exists.mp htot
    rw [hvv] at hz
    simp only [Option.getD_some] at hz
    have hvlt : v < 9 := by
      have := make_mapping_code_lt (c0 :: rest) c v hvv
      simp only [List.length_cons, hlen] at this
      omega
    have hv0 : v = 0 := by
      rw [Nat.shiftLeft_eq] at hz
      have hWe : W = 4294967296 := by norm_num [W]
      rw [hWe] at hz
      have hlt : v * 2 ^ (idx * 3) < 4294967296 := by
        calc v * 2 ^ (idx * 3) ≤ 8 * 2 ^ (idx * 3) :=
              Nat.mul_le_mul_right _ (by omega)
          _ ≤ 8 * 2 ^ 24 :=
              Nat.mul_le_mul_left 8 (Nat.pow_le_pow_right (by norm_num) (by omega))
          _ < 4294967296 := by norm_num
      rw [Nat.mod_eq_of_lt hlt] at hz
      rcases Nat.mul_eq_zero.mp hz with h0 | h0
      · exact h0
      · have := Nat.pos_pow_of_pos (idx * 3) (show 0 < 2 by norm_num)
        omega
    rw [hv0] at hvv
    exact ⟨(make_mapping_zero_unique c0 rest c hvv).symm, hsp⟩

/-- For validated input whose packed start cipher is zero, the packed goal
cipher is also zero (the input must be nine copies of one non-blank
symbol, hence so is the output). -/
theorem pack_snd_zero_of_fst_zero (input output : List Char)
    (hv : validate_input input output = .ok ())
    (hz : (pack input output (make_mapping input)).1 = 0) :
    (pack input output (make_mapping input)).2 = 0 := by
  have hlens : input.length = 9 ∧ output.length = 9 ∧
      is_permutation input output = true := by
    unfold validate_input at hv
    split at hv
    · split at hv
      · split at hv
        · refine ⟨by assumption, by assumption, by assumption⟩
        · cases hv
      · cases hv
    · cases hv
  obtain ⟨hli, hlo, hperm⟩ := hlens
  obtain ⟨a0, a1, a2, a3, a4, a5, a6, a7, a8, rfl⟩ := exists_nine input hli
  obtain ⟨b0, b1, b2, b3, b4, b5, b6, b7, b8, rfl⟩ := exists_nine output hlo
  simp only [pack, List.zip_cons_cons, List.zip_nil_right, pack_aux,
    or_eq_zero_iff] at hz
  obtain ⟨⟨⟨⟨⟨⟨⟨⟨⟨-, h0⟩, h1⟩, h2⟩, h3⟩, h4⟩, h5⟩, h6⟩, h7⟩, h8⟩ := hz
  have hrl : ([a1, a2, a3, a4, a5, a6, a7, a8] : List Char).length = 8 := rfl
  have e1 := pack_one_zero_nonfirst a0 _ a1 1 (by omega) (by omega) hrl
    (by simp) h1
  have e2 := pack_one_zero_nonfirst a0 _ a2 2 (by omega) (by omega) hrl
    (by simp) h2
  have e3 := pack_one_zero_nonfirst a0 _ a3 3 (by omega) (by omega) hrl
    (by simp) h3
  have e4 := pack_one_zero_nonfirst a0 _ a4 4 (by omega) (by omega) hrl
    (by simp) h4
  have e5 := pack_one_zero_nonfirst a0 _ a5 5 (by omega) (by omega) hrl
    (by simp) h5
  have e6 := pack_one_zero_nonfirst a0 _ a6 6 (by omega) (by omega) hrl
    (by simp) h6
  have e7 := pack_one_zero_nonfirst a0 _ a7 7 (by omega) (by omega) hrl
    (by simp) h7
  have e8 := pack_one_zero_nonfirst a0 _ a8 8 (by omega) (by omega) hrl
    (by simp) h8
  obtain ⟨rfl, hne⟩ := e1
  obtain ⟨rfl, -⟩ := e2
  obtain ⟨rfl, -⟩ := e3
  obtain ⟨rfl, -⟩ := e4
  obtain ⟨rfl, -⟩ := e5
  obtain ⟨rfl, -⟩ := e6
  obtain ⟨rfl, -⟩ := e7
  obtain ⟨rfl, -⟩ := e8
  -- the input is nine copies of a0; the output is a permutation of it
  have hcnt : List.count a0 [b0, b1, b2, b3, b4, b5, b6, b7, b8] = 9 := by
    unfold is_permutation at hperm
    rw [List.all_eq_true] at hperm
    have := hperm a0 (by simp)
    rw [beq_iff_eq] at this
    rw [← this]
    simp
  have hall : ∀ b ∈ [b0, b1, b2, b3, b4, b5, b6, b7, b8], a0 = b :=
    List.count_eq_length.mp (by rw [hcnt]; rfl)
  have hb0 : b0 = a0 := (hall b0 (by simp)).symm
  have hb1 : b1 = a0 := (hall b1 (by simp)).symm
  have hb2 : b2 = a0 := (hall b2 (by simp)).symm
  have hb3 : b3 = a0 := (hall b3 (by simp)).symm
  have hb4 : b4 = a0 := (hall b4 (by simp)).symm
  have hb5 : b5 = a0 := (hall b5 (by simp)).symm
  have hb6 : b6 = a0 := (hall b6 (by simp)).symm
  have hb7 : b7 = a0 := (hall b7 (by simp)).symm
  have hb8 : b8 = a0 := (hall b8 (by simp)).symm
  rw [hb0, hb1, hb2, hb3, hb4, hb5, hb6, hb7, hb8]
  have hlk : (make_mapping [a0, a0, a0, a0, a0, a0, a0, a0, a0]).lookup a0 =
      some 0 := make_mapping_head_zero a0 _
  simp only [pack, List.zip_cons_cons, List.zip_nil_right, pack_aux]
  simp only [pack_one, if_neg hne, hlk, Option.getD_some, Nat.zero_shiftLeft,
    Nat.zero_mod, Nat.zero_or, Nat.or_zero]

/-! ### Claim theorems about the search engine -/

/-- C7: for every validated input pair whose start cipher is unreachable
from the goal cipher in the move graph, `solve` terminates for every
sufficient fuel and returns the typed error `Unsolvable` when the
frontier empties; it neither panics on an empty-queue pop (the pop is
`.ok_or(Unsolvable)`, a typed error) nor loops forever. -/
theorem c7_unreachable_returns_unsolvable (input output : List Char) (fuel : Nat)
    (hv : validate_input input output = .ok ())
    (hur : ¬ Reach (pack input output (make_mapping input)).2
      (pack input output (make_mapping input)).1)
    (hfuel : 5 * W + 1 ≤ fuel) :
    solve fuel input output = some (.error SolveError.Unsolvable) := by
  by_cases hz : (pack input output (make_mapping input)).1 = 0
  · exact absurd (by
      rw [hz, pack_snd_zero_of_fst_zero input output hv hz]
      exact Reach.refl) hur
  · exact solve_unsolvable_of_unreachable input output fuel hv hz hur hfuel

theorem c7_unreachable_returns_unsolvable_witness :
    solve (5 * W + 1) "1  211111".toList "21 1111 1".toList =
      some (.error SolveError.Unsolvable) :=
  c7_unreachable_returns_unsolvable _ _ _ (by decide)
    (fun h => absurd (reach_wf _ _ (by decide) h) (by decide)) (le_refl _)

/-- C8 (amended): `solve` has no pre-search solvability gate: whenever it
returns `Unsolvable` (in particular on inversion-parity-failing pairs),
the goal state had already been inserted into the predecessor map and at
least one state had been popped and expanded; the error only arises from
the search loop exhausting its frontier. -/
theorem c8_unsolvable_only_after_search (fuel : Nat) (a b : List Char)
    (h : solve fuel a b = some (.error SolveError.Unsolvable)) :
    1 ≤ (solveTrail fuel a b).length :=
  solveTrail_pos_of_unsolvable fuel a b h

theorem c8_unsolvable_only_after_search_witness :
    solve 200 "1  211111".toList "21 1111 1".toList =
      some (.error SolveError.Unsolvable) ∧
    1 ≤ (solveTrail 200 "1  211111".toList "21 1111 1".toList).length :=
  ⟨by decide, c8_unsolvable_only_after_search 200 _ _ (by decide)⟩

/-- C8 (counterexample): the spec's own odd-parity pair fails the
(spec-modelled, absent from `src/`) inversion-count parity check, yet
`solve` does not fail "with Unsolvable before search begins": it cannot
return `Unsolvable` with an empty expansion trail, because the only
source of that error is a failed pop after the first expansion. -/
theorem c8_counterexample_no_presearch_gate :
    parity_fails "21345678 ".toList "12345678 ".toList = true ∧
    ¬ (solve (5 * W + 1) "21345678 ".toList "12345678 ".toList =
        some (.error SolveError.Unsolvable) ∧
      solveTrail (5 * W + 1) "21345678 ".toList "12345678 ".toList = []) := by
  refine ⟨by decide, ?_⟩
  rintro ⟨hs, ht⟩
  have hpos := solveTrail_pos_of_unsolvable _ _ _ hs
  rw [ht] at hpos
  simp at hpos

/-- The packed start of the board `1 2 3 4 5 _ 6 7 8` is unreachable from
the packed goal `1 2 3 4 5 6 7 8 _`: the goal cipher is corrupted (the
symbol `'8'` received code 8, whose spill sets the low bit of the goal's
blank slot 8), so the goal's two legal successors are well-formed states
whose conserved field multiset differs from the start cipher's. -/
theorem unreachable_c1_example :
    ¬ Reach (pack "12345 678".toList "12345678 ".toList
        (make_mapping "12345 678".toList)).2
      (pack "12345 678".toList "12345678 ".toList
        (make_mapping "12345 678".toList)).1 := by
  intro h
  have hpi : (pack "12345 678".toList "12345678 ".toList
      (make_mapping "12345 678".toList)).1 = 687359624 := by decide
  have hpo : (pack "12345 678".toList "12345678 ".toList
      (make_mapping "12345 678".toList)).2 = 1092568712 := by decide
  rw [hpi, hpo] at h
  have key : ∀ x, Reach 1092568712 x → x = 1092568712 ∨
      (wf x ∧ (tally x = tally (up 1092568712) ∨
        tally x = tally (left 1092568712))) := by
    intro x hx
    induction hx with
    | refl => left; rfl
    | @tail t u hst m hm ih =>
      rcases ih with rfl | ⟨hwf, htl⟩
      · cases m with
        | up =>
          right
          rw [← hm]
          exact ⟨by decide, Or.inl rfl⟩
        | down =>
          left
          rw [← hm]
          decide
        | left =>
          right
          rw [← hm]
          exact ⟨by decide, Or.inr rfl⟩
        | right =>
          left
          rw [← hm]
          decide
      · right
        rw [← hm]
        refine ⟨wf_move m t hwf, ?_⟩
        rw [tally_move m t hwf]
        exact htl
  rcases key _ h with h1 | ⟨_, h2 | h2⟩
  · exact absurd h1 (by decide)
  · exact absurd h2 (by decide)
  · exact absurd h2 (by decide)

/-- C1 (counterexample): the end-to-end claim fails at its own input.  For
start `1 2 3 4 5 _ 6 7 8` and goal `1 2 3 4 5 6 7 8 _` there is no trace
`t` such that `solve` returns `Ok t` with 3 states (2 moves), first state
the packed start, last the packed goal, and consecutive states linked by
single legal slides — `solve` in fact fails on this input. -/
theorem c1_counterexample_no_two_move_trace :
    ¬ ∃ t : List Nat,
      solve (5 * W + 1) "12345 678".toList "12345678 ".toList = some (.ok t) ∧
      t ≠ [] ∧ t.length = 3 ∧
      t.head? = some (pack "12345 678".toList "12345678 ".toList
        (make_mapping "12345 678".toList)).1 ∧
      t.getLast? = some (pack "12345 678".toList "12345678 ".toList
        (make_mapping "12345 678".toList)).2 ∧
      List.Chain' (fun x y => ∃ m : Move,
        m.legal (get_blank_pos x) = true ∧ m.apply x = y) t := by
  rintro ⟨t, hok, -, -, -, -, -⟩
  rw [solve_unsolvable_of_unreachable _ _ _ (by decide) (by decide)
    unreachable_c1_example (le_refl _)] at hok
  cases hok

/-- C1 (amended): for start board `[1,2,3,4,5,0,6,7,8]` and goal board
`[1,2,3,4,5,6,7,8,0]` (0 = blank), `solve` does not return a trace at
all: it terminates with the typed error `Unsolvable` for every sufficient
fuel.  The encoder gives the ninth distinct symbol code 8, which
overflows its 3-bit slot, corrupting the packed goal; the packed start is
then unreachable from the packed goal in the move graph (and the claimed
2-move minimality is impossible anyway, since the boards are more than
two slides apart). -/
theorem c1_solve_returns_unsolvable (fuel : Nat) (hfuel : 5 * W + 1 ≤ fuel) :
    solve fuel "12345 678".toList "12345678 ".toList =
      some (.error SolveError.Unsolvable) :=
  solve_unsolvable_of_unreachable _ _ fuel (by decide) (by decide)
    unreachable_c1_example hfuel

theorem c1_solve_returns_unsolvable_witness :
    solve (5 * W + 1) "12345 678".toList "12345678 ".toList =
      some (.error SolveError.Unsolvable) :=
  c1_solve_returns_unsolvable (5 * W + 1) (le_refl _)

end Superzub
